import Mathlib

/-!
Verification of the connect-four engine (`src/main.rs`): a shallow embedding
of the game-state engine with incremental threat detection and the minimax
search, together with proofs of the specified properties.

Rust `usize` indices are modelled as `Nat`; the `i32` scores are modelled as
`Int` (the theorems about `score` carry an explicit size bound under which
the mathematical integer computation coincides with non-overflowing `i32`
arithmetic).  `Vec<T>` is modelled as `List T`, mutation as functional update.
-/

/-- The three cell values (`enum Piece`). -/
inductive Piece where
  | Red : Piece
  | Yellow : Piece
  | Empty : Piece
deriving DecidableEq, Repr

/-- `Piece::opponent`. -/
def Piece.opponent : Piece → Piece
  | Piece.Red => Piece.Yellow
  | Piece.Yellow => Piece.Red
  | Piece.Empty => Piece.Empty

/-- `struct Grid<T>` instantiated at `Piece`: flat row-major storage. -/
structure Grid where
  data : List Piece
  width : Nat
  height : Nat
deriving DecidableEq, Repr

/-- `Grid::new(width, height, default)`. -/
def Grid.new (width height : Nat) (default : Piece) : Grid :=
  ⟨List.replicate (width * height) default, width, height⟩

/-- `Grid::get(x, y)`: read the cell at `y * width + x`.  (Out-of-range reads
panic in Rust; they are never performed by the engine, and default to `Empty`
here.) -/
def Grid.get (g : Grid) (x y : Nat) : Piece :=
  g.data.getD (y * g.width + x) Piece.Empty

/-- The write performed through `Grid::get_mut(x, y)`. -/
def Grid.setCell (g : Grid) (x y : Nat) (p : Piece) : Grid :=
  { g with data := g.data.set (y * g.width + x) p }

/-- `type Position = (usize, usize)`. -/
abbrev Position := Nat × Nat

/-- `struct Board`. -/
structure Board where
  grid : Grid
  drop_zones : List Nat
  threats : List (Position × Piece)
  winner : Option Piece
  next_move : Piece
  show_threats : Bool
deriving DecidableEq, Repr

/-- `struct Tallies`: running per-piece position lists of the sliding window. -/
structure Tallies where
  red : List Position
  yellow : List Position
  empty : List Position
deriving DecidableEq, Repr

/-- `Tallies::get`. -/
def Tallies.get (t : Tallies) : Piece → List Position
  | Piece.Red => t.red
  | Piece.Yellow => t.yellow
  | Piece.Empty => t.empty

/-- Functional update of the list selected by `Tallies::get`. -/
def Tallies.setL (t : Tallies) : Piece → List Position → Tallies
  | Piece.Red, l => { t with red := l }
  | Piece.Yellow, l => { t with yellow := l }
  | Piece.Empty, l => { t with empty := l }

/-- `tallies.get(piece).push(pos)`. -/
def Tallies.push (t : Tallies) (π : Piece) (p : Position) : Tallies :=
  t.setL π (t.get π ++ [p])

/-- `tallies.get(piece).retain(|&pos| pos != early_pos)`. -/
def Tallies.remove (t : Tallies) (π : Piece) (p : Position) : Tallies :=
  t.setL π ((t.get π).filter (fun q => q != p))

/-- The offsets `-3..=3` iterated by `Board::update`. -/
def dvals : List Int := [-3, -2, -1, 0, 1, 2, 3]

/-- The bounds filter of `Board::update`:
`*px >= 0 && *py >= 0 && *px < width && *py < height`. -/
def inB (w h : Nat) (p : Int × Int) : Bool :=
  decide (0 ≤ p.1) && decide (0 ≤ p.2) && decide (p.1 < (w : Int)) && decide (p.2 < (h : Int))

/-- The clipped line of positions through `(x, y)` along `(dx, dy)`
collected by `Board::update` (offsets `-3..=3`, in-bounds only). -/
def linePts (w h x y : Nat) (dx dy : Int) : List Position :=
  (((dvals.map (fun d => ((x : Int) + d * dx, (y : Int) + d * dy))).filter
      (inB w h)).map (fun p => (p.1.toNat, p.2.toNat)))

/-- Pair each position of a line with its grid value, as `Board::update` does. -/
def cellsOf (g : Grid) (l : List Position) : List (Position × Piece) :=
  l.map (fun p => (p, g.get p.1 p.2))

/-- One iteration of the window loop body acting on the tallies:
push `poses[i]`, and for `i >= 4` retain-out `poses[i-4]`. -/
def stepT (poses : List (Position × Piece)) (i : Nat) (t : Tallies) : Tallies :=
  let pp := poses.getD i ((0, 0), Piece.Empty)
  let t1 := t.push pp.2 pp.1
  if 4 ≤ i then
    let ep := poses.getD (i - 4) ((0, 0), Piece.Empty)
    t1.remove ep.2 ep.1
  else t1

/-- The threats recorded at window position `i` (`i >= 3`, exactly one empty
cell in the window, three cells of one color). -/
def pushesAt (t : Tallies) (i : Nat) : List (Position × Piece) :=
  if 3 ≤ i ∧ t.empty.length = 1 then
    let gap := t.empty.headD (0, 0)
    [Piece.Red, Piece.Yellow].filterMap
      (fun π => if (t.get π).length = 3 then some (gap, π) else none)
  else []

/-- The inner `for i in 0..poses.len()` loop of `Board::update`, returning the
threats pushed, in push order; `rem` counts the iterations left, so the loop
visits indices `i, i+1, …, i+rem-1`. -/
def scanAux (poses : List (Position × Piece)) : Nat → Nat → Tallies →
    List (Position × Piece)
  | 0, _, _ => []
  | rem + 1, i, t =>
    let t' := stepT poses i t
    pushesAt t' i ++ scanAux poses rem (i + 1) t'

/-- All threats found along one line of cells. -/
def scanLine (poses : List (Position × Piece)) : List (Position × Piece) :=
  scanAux poses poses.length 0 ⟨[], [], []⟩

/-- The threats pushed along one direction by `Board::update` (lines clipped
to fewer than 4 cells are discarded). -/
def lineThreats (g : Grid) (x y : Nat) (dx dy : Int) : List (Position × Piece) :=
  if 4 ≤ (cellsOf g (linePts g.width g.height x y dx dy)).length then
    scanLine (cellsOf g (linePts g.width g.height x y dx dy))
  else []

/-- The direction vectors of `Board::update`. -/
def dirsList : List (Int × Int) := [(-1, -1), (-1, 0), (-1, 1), (0, 1)]

/-- All threats pushed by one call of `Board::update`, in push order. -/
def allPushes (g : Grid) (x y : Nat) : List (Position × Piece) :=
  lineThreats g x y (-1) (-1) ++ lineThreats g x y (-1) 0 ++
    lineThreats g x y (-1) 1 ++ lineThreats g x y 0 1

/-- `Board::update(x, y)`: re-derive threats for every window crossing `(x, y)`. -/
def Board.update (b : Board) (x y : Nat) : Board :=
  { b with threats := b.threats ++ allPushes b.grid x y }

/-- `Board::set(x, y, piece)`: write the cell, record a win if the cell was a
recorded threat for `piece`, drop all threats at `(x, y)`, then re-scan. -/
def Board.set (b : Board) (x y : Nat) (piece : Piece) : Board :=
  let b1 : Board :=
    { b with
      grid := b.grid.setCell x y piece
      winner := if ((x, y), piece) ∈ b.threats then some piece else b.winner
      threats := b.threats.filter (fun pq => pq.1 != (x, y)) }
  b1.update x y

/-- `Board::drop(x)`: returns the mutated board together with the Rust return
value (`Some(landing row)` or `None` for a full column). -/
def Board.drop (b : Board) (x : Nat) : Board × Option Nat :=
  if 0 < b.drop_zones.getD x 0 then
    let dz' := b.drop_zones.set x (b.drop_zones.getD x 0 - 1)
    let drop_spot := dz'.getD x 0
    let b1 := { b with drop_zones := dz' }
    let b2 := b1.set x drop_spot b.next_move
    ({ b2 with next_move := b.next_move.opponent }, some drop_spot)
  else (b, none)

/-- `Board::new_with_size(width, height)`. -/
def Board.new_with_size (width height : Nat) : Board :=
  { grid := Grid.new width height Piece.Empty
    drop_zones := List.replicate width height
    threats := []
    winner := none
    next_move := Piece.Yellow
    show_threats := false }

/-- `Board::new()`: the default 7×6 board. -/
def Board.new : Board := Board.new_with_size 7 6

/-- `i32::MAX`. -/
def i32Max : Int := 2147483647

/-- `i32::MIN`. -/
def i32Min : Int := -2147483648

/-- The signed contribution of one `threats` entry in `Board::score` (`h` is
the grid height): 0 on the bottom row, otherwise `±2^row`. -/
def threatContribution (h : Nat) (t : Position × Piece) : Int :=
  if t.1.2 = h - 1 then 0
  else
    match t.2 with
    | Piece.Red => (2 : Int) ^ t.1.2
    | Piece.Yellow => -((2 : Int) ^ t.1.2)
    | Piece.Empty => 0

/-- `Board::score` (`Search::score` for `Board`). -/
def Board.score (b : Board) : Int :=
  match b.winner with
  | some piece => if piece = Piece.Yellow then i32Min else i32Max
  | none => (b.threats.map (threatContribution b.grid.height)).sum

/-- `Board::game_over` (`Search::game_over` for `Board`). -/
def Board.game_over (b : Board) : Bool :=
  b.winner.isSome || b.drop_zones.all (fun x => x == 0)

/-- `Board::moves` (`BoardMoveIterator` materialised as a list): for each
non-full column in increasing order, the board after dropping there. -/
def Board.moves (b : Board) : List Board :=
  (List.range b.drop_zones.length).filterMap
    (fun i => if b.drop_zones.getD i 0 = 0 then none else some (b.drop i).1)

/-- `omax` of `minimax`. -/
def omax (a : Option Int) (v : Int) : Option Int :=
  match a with
  | none => some v
  | some u => some (max u v)

/-- `omin` of `minimax`. -/
def omin (a : Option Int) (v : Int) : Option Int :=
  match a with
  | none => some v
  | some u => some (min u v)

mutual

/-- The free function `minimax(state, depth, alpha, beta, maximizing)`
instantiated at `Board` (the program's only `Search` instance).  The
alpha-beta cutoff of the source is commented out, so `alpha`/`beta` are
threaded but never cut the iteration. -/
def minimax (state : Board) (depth : Nat) (alpha beta : Option Int)
    (maximizing : Bool) : Int :=
  match depth with
  | 0 => state.score
  | d + 1 =>
    if state.game_over then state.score
    else if maximizing then (maxGo d beta state.moves none alpha).getD state.score
    else (minGo d alpha state.moves none beta).getD state.score
termination_by (depth, 0, 0)

/-- The maximizing child loop: folds `omax` over the child scores while
accumulating the improved alpha passed to recursive calls. -/
def maxGo (d : Nat) (beta : Option Int) (l : List Board)
    (maxEval newAlpha : Option Int) : Option Int :=
  match l with
  | [] => maxEval
  | child :: rest =>
    let cs := minimax child d newAlpha beta false
    maxGo d beta rest (omax maxEval cs) (omax newAlpha cs)
termination_by (d, 1, l.length)

/-- The minimizing child loop. -/
def minGo (d : Nat) (alpha : Option Int) (l : List Board)
    (minEval newBeta : Option Int) : Option Int :=
  match l with
  | [] => minEval
  | child :: rest =>
    let cs := minimax child d alpha newBeta true
    minGo d alpha rest (omin minEval cs) (omin newBeta cs)
termination_by (d, 1, l.length)

end

/-- Apply a sequence of `drop` calls in order. -/
def runDrops (b : Board) (l : List Nat) : Board :=
  l.foldl (fun bb c => (bb.drop c).1) b

/-- Boards reachable from a fresh `Board::new_with_size(w, h)` by `drop`
calls on in-range columns. -/
inductive Reachable (w h : Nat) : Board → Prop where
  | base : Reachable w h (Board.new_with_size w h)
  | step {b : Board} (c : Nat) : Reachable w h b → c < w →
      Reachable w h (b.drop c).1

/-! ### Basic structural lemmas -/

@[simp] theorem update_grid (b : Board) (x y : Nat) : (b.update x y).grid = b.grid := rfl

@[simp] theorem update_winner (b : Board) (x y : Nat) : (b.update x y).winner = b.winner := rfl

@[simp] theorem update_drop_zones (b : Board) (x y : Nat) :
    (b.update x y).drop_zones = b.drop_zones := rfl

@[simp] theorem update_next_move (b : Board) (x y : Nat) :
    (b.update x y).next_move = b.next_move := rfl

theorem update_threats (b : Board) (x y : Nat) :
    (b.update x y).threats = b.threats ++ allPushes b.grid x y := rfl

theorem set_grid (b : Board) (x y : Nat) (p : Piece) :
    (b.set x y p).grid = b.grid.setCell x y p := rfl

theorem set_winner_eq (b : Board) (x y : Nat) (p : Piece) :
    (b.set x y p).winner = if ((x, y), p) ∈ b.threats then some p else b.winner := rfl

theorem set_drop_zones (b : Board) (x y : Nat) (p : Piece) :
    (b.set x y p).drop_zones = b.drop_zones := rfl

theorem set_next_move (b : Board) (x y : Nat) (p : Piece) :
    (b.set x y p).next_move = b.next_move := rfl

theorem set_threats (b : Board) (x y : Nat) (p : Piece) :
    (b.set x y p).threats =
      b.threats.filter (fun pq => pq.1 != (x, y)) ++ allPushes (b.grid.setCell x y p) x y := rfl

/-- Reachability is preserved by running a list of in-range drops. -/
theorem reachable_runDrops {w h : Nat} {b : Board} (hb : Reachable w h b)
    (l : List Nat) (hl : ∀ c ∈ l, c < w) : Reachable w h (runDrops b l) := by
  induction l generalizing b with
  | nil => exact hb
  | cons c cs ih =>
    have : runDrops b (c :: cs) = runDrops (b.drop c).1 cs := rfl
    rw [this]
    exact ih (hb.step c (hl c (by simp))) (fun d hd => hl d (by simp [hd]))

/-! ### C4: drop on a full column -/

/-- C4: for every board and every column `c < width` with `drop_zones[c] == 0`,
`drop(c)` returns `None` and leaves every component of the board unchanged. -/
theorem drop_full_column_rejected (b : Board) (c : Nat) (_hc : c < b.grid.width)
    (h0 : b.drop_zones.getD c 0 = 0) : b.drop c = (b, none) := by
  unfold Board.drop
  rw [h0]
  simp

/-- Witness for `drop_full_column_rejected`: a 1×1 board whose only column is
full after one drop. -/
theorem drop_full_column_rejected_witness :
    (0 < (runDrops (Board.new_with_size 1 1) [0]).grid.width ∧
      (runDrops (Board.new_with_size 1 1) [0]).drop_zones.getD 0 0 = 0) ∧
    (runDrops (Board.new_with_size 1 1) [0]).drop 0 = (runDrops (Board.new_with_size 1 1) [0], none) :=
  ⟨⟨by decide, by decide⟩,
    drop_full_column_rejected (runDrops (Board.new_with_size 1 1) [0]) 0 (by decide) (by decide)⟩

/-! ### C6: placing on a threatened cell -/

/-- C6: placing a piece of color `p` at a cell recorded in `threats` for `p`
sets `winner = Some(p)`; placing at a cell not recorded as a threat for the
placed color (in particular a cell threatened only by the other color) leaves
`winner` unchanged, so it is never set to the other color. -/
theorem set_on_threat_sets_winner (b : Board) (x y : Nat) (p : Piece) :
    ((((x, y), p) ∈ b.threats) → (b.set x y p).winner = some p) ∧
    ((((x, y), p) ∉ b.threats) → (b.set x y p).winner = b.winner) := by
  refine ⟨fun h => ?_, fun h => ?_⟩ <;> rw [set_winner_eq] <;> simp [h]

/-- Witness for `set_on_threat_sets_winner`: after Yellow builds three in a
row on the bottom, `((3,5), Yellow)` is a recorded threat, and placing
Yellow there sets the winner. -/
theorem set_on_threat_sets_winner_witness :
    (((3, 5), Piece.Yellow) ∈ (runDrops Board.new [0, 6, 1, 6, 2]).threats) ∧
    ((runDrops Board.new [0, 6, 1, 6, 2]).set 3 5 Piece.Yellow).winner = some Piece.Yellow :=
  ⟨by decide,
    (set_on_threat_sets_winner (runDrops Board.new [0, 6, 1, 6, 2]) 3 5 Piece.Yellow).1 (by decide)⟩

/-! ### C7: persistence of winner -/

/-- A reachable board on which Yellow has already won (bottom row `Y Y Y` at
columns 0–2 completed at column 3) while Red kept a three-in-a-row of its own. -/
def wonBoard : Board := runDrops Board.new [0, 4, 1, 5, 2, 6, 3]

/-- Counterexample to C7: `wonBoard` has `winner = Some(Yellow)`, yet after
seven further `drop` calls (each a legal column) the winner is `Some(Red)`:
`drop` never consults `winner`, so a later four-in-a-row overwrites it. -/
theorem winner_can_be_overwritten :
    wonBoard.winner = some Piece.Yellow ∧
    Reachable 7 6 (runDrops wonBoard [4, 0, 5, 0, 6, 1, 3]) ∧
    ¬ (runDrops wonBoard [4, 0, 5, 0, 6, 1, 3]).winner = some Piece.Yellow ∧
    (runDrops wonBoard [4, 0, 5, 0, 6, 1, 3]).winner = some Piece.Red :=
  ⟨by decide,
    reachable_runDrops (reachable_runDrops Reachable.base [0, 4, 1, 5, 2, 6, 3] (by decide)) _ (by decide),
    by decide, by decide⟩

/-- C7 (amended): once `winner` is set it is never cleared by a further
`drop`: it either stays `Some(P)` or is overwritten with `Some(next_move)`
when the drop fills a cell threatened by the mover. -/
theorem winner_never_cleared (b : Board) (c : Nat) (P : Piece)
    (h : b.winner = some P) :
    (b.drop c).1.winner = some P ∨ (b.drop c).1.winner = some b.next_move := by
  unfold Board.drop
  by_cases h1 : 0 < b.drop_zones.getD c 0
  · rw [if_pos h1]
    rw [set_winner_eq]  -- the winner of the board built by `set`
    split
    · right; rfl
    · left; exact h
  · rw [if_neg h1]
    left; exact h

/-- Witness for `winner_never_cleared`. -/
theorem winner_never_cleared_witness :
    wonBoard.winner = some Piece.Yellow ∧
    ((wonBoard.drop 0).1.winner = some Piece.Yellow ∨
      (wonBoard.drop 0).1.winner = some wonBoard.next_move) :=
  ⟨by decide, winner_never_cleared wonBoard 0 Piece.Yellow (by decide)⟩

/-! ### C8: threat weighting by row -/

/-- A reachable board holding two Yellow threats at rows 1 and 2 (both
non-bottom): a vertical threat at `(0,2)` over a stack of three Yellows, and
one at `(1,1)` over a stack of three Yellows sitting on a Red. -/
def wBoard8 : Board := runDrops Board.new [0, 1, 0, 6, 0, 6, 1, 5, 1, 5, 1]

/-- Counterexample to C8: on `wBoard8` (height 6) the same-color non-bottom
threats `((1,1), Yellow)` and `((0,2), Yellow)` violate the claimed
monotonicity: the threat with the *smaller* row index (row 1, closer to the
top) does not contribute a strictly larger absolute value — the code weighs a
threat by `2^row` with row 0 at the top, so *lower* threats weigh more. -/
theorem threat_weight_counterexample :
    Reachable 7 6 wBoard8 ∧
    ((0, 2), Piece.Yellow) ∈ wBoard8.threats ∧
    ((1, 1), Piece.Yellow) ∈ wBoard8.threats ∧
    wBoard8.grid.height = 6 ∧ (1 : Nat) < 2 ∧ 2 < 6 - 1 ∧
    ¬ ((threatContribution 6 ((1, 1), Piece.Yellow)).natAbs >
        (threatContribution 6 ((0, 2), Piece.Yellow)).natAbs) :=
  ⟨reachable_runDrops Reachable.base _ (by decide), by decide, by decide, by decide,
    by decide, by decide, by decide⟩

/-- C8 (amended): the absolute weight `score()` assigns to a non-bottom-row
threat is strictly increasing in the row index: of two same-color threats
above the bottom row, the one with the *larger* row index (lower in the
column) contributes the strictly larger absolute value. -/
theorem threat_weight_monotone (hgt y1 y2 x1 x2 : Nat) (c : Piece)
    (hc : c ≠ Piece.Empty) (h12 : y1 < y2) (h2 : y2 < hgt - 1) :
    (threatContribution hgt ((x1, y1), c)).natAbs <
      (threatContribution hgt ((x2, y2), c)).natAbs := by
  have hy1 : y1 ≠ hgt - 1 := by omega
  have hy2 : y2 ≠ hgt - 1 := by omega
  unfold threatContribution
  simp only [hy1, hy2, if_false]
  cases c with
  | Red =>
    simpa [Int.natAbs_pow] using Nat.pow_lt_pow_right (by norm_num : 1 < 2) h12
  | Yellow =>
    simpa [Int.natAbs_neg, Int.natAbs_pow] using
      Nat.pow_lt_pow_right (by norm_num : 1 < 2) h12
  | Empty => exact absurd rfl hc

/-- Witness for `threat_weight_monotone` at the two threats of `wBoard8`. -/
theorem threat_weight_monotone_witness :
    (Piece.Yellow ≠ Piece.Empty ∧ (1 : Nat) < 2 ∧ 2 < 6 - 1) ∧
    (threatContribution 6 ((1, 1), Piece.Yellow)).natAbs <
      (threatContribution 6 ((0, 2), Piece.Yellow)).natAbs :=
  ⟨⟨by decide, by decide, by decide⟩,
    threat_weight_monotone 6 1 2 1 0 Piece.Yellow (by decide) (by decide) (by decide)⟩

/-! ### C2: pruning arguments never change the minimax value -/

/-- The maximizing child loop ignores its `beta` and accumulated-alpha
arguments (the alpha-beta cutoff of the source is commented out), provided
one-ply-deeper searches ignore theirs. -/
theorem maxGo_indep (d : Nat)
    (hIH : ∀ (s : Board) (a b : Option Int), minimax s d a b false = minimax s d none none false) :
    ∀ (l : List Board) (me na beta na' beta' : Option Int),
      maxGo d beta l me na = maxGo d beta' l me na' := by
  intro l
  induction l with
  | nil => intro me na beta na' beta'; rw [maxGo, maxGo]
  | cons child rest ih =>
    intro me na beta na' beta'
    rw [maxGo, maxGo]
    have hcs : minimax child d na beta false = minimax child d na' beta' false := by
      rw [hIH child na beta, hIH child na' beta']
    rw [hcs]
    exact ih _ _ _ _ _

/-- The minimizing child loop ignores its `alpha` and accumulated-beta
arguments. -/
theorem minGo_indep (d : Nat)
    (hIH : ∀ (s : Board) (a b : Option Int), minimax s d a b true = minimax s d none none true) :
    ∀ (l : List Board) (me nb alpha nb' alpha' : Option Int),
      minGo d alpha l me nb = minGo d alpha' l me nb' := by
  intro l
  induction l with
  | nil => intro me nb alpha nb' alpha'; rw [minGo, minGo]
  | cons child rest ih =>
    intro me nb alpha nb' alpha'
    rw [minGo, minGo]
    have hcs : minimax child d alpha nb true = minimax child d alpha' nb' true := by
      rw [hIH child alpha nb, hIH child alpha' nb']
    rw [hcs]
    exact ih _ _ _ _ _

/-- C2: for every state, depth, maximizing flag and any `alpha`/`beta`
arguments, `minimax(state, depth, alpha, beta, maximizing)` returns exactly
the same score as the exhaustive `minimax(state, depth, None, None,
maximizing)`: the pruning parameters never change the returned value. -/
theorem minimax_pruning_args_irrelevant (state : Board) (depth : Nat)
    (alpha beta : Option Int) (maximizing : Bool) :
    minimax state depth alpha beta maximizing = minimax state depth none none maximizing := by
  induction depth generalizing state alpha beta maximizing with
  | zero => rw [minimax, minimax]
  | succ d ih =>
    rw [minimax, minimax]
    by_cases hg : state.game_over
    · simp [hg]
    · simp only [hg, Bool.false_eq_true, if_false]
      cases maximizing with
      | true =>
        simp only [if_true]
        rw [maxGo_indep d (fun s a b => ih s a b false) state.moves none alpha beta none none]
      | false =>
        simp only [Bool.false_eq_true, if_false]
        rw [minGo_indep d (fun s a b => ih s a b true) state.moves none beta alpha none none]

/-! ### Generic list helpers -/

/-- A `Bool` equal to `true` exactly on a decidable proposition is `decide`
of that proposition. -/
theorem bool_eq_decide_of_iff {b : Bool} {p : Prop} [Decidable p]
    (h : b = true ↔ p) : b = decide p := by
  cases hb : b
  · rw [hb] at h
    simp at h
    simp [h]
  · rw [hb] at h
    simp at h
    simp [h]

/-- In a duplicate-free list of length at least two, every element has a
distinct companion. -/
theorem exists_ne_of_nodup {α : Type} {l : List α} (hnd : l.Nodup)
    (hlen : 2 ≤ l.length) (a : α) (ha : a ∈ l) : ∃ b ∈ l, b ≠ a := by
  match l, hnd, hlen with
  | x :: y :: rest, hnd, _ =>
    rw [List.nodup_cons] at hnd
    by_cases hx : x = a
    · refine ⟨y, by simp, fun hy => ?_⟩
      have hxy : x = y := by rw [hx, hy]
      exact hnd.1 (hxy ▸ List.mem_cons_self y rest)
    · exact ⟨x, by simp, hx⟩

/-- Characterisation of a filter returning a singleton, over a
duplicate-free list. -/
theorem filter_eq_singleton_iff {α : Type} {l : List α}
    {p : α → Bool} {a : α} (hnd : l.Nodup) :
    l.filter p = [a] ↔ a ∈ l ∧ p a = true ∧ ∀ b ∈ l, p b = true → b = a := by
  revert hnd
  induction l with
  | nil => intro _; simp
  | cons x xs ih =>
    intro hnd
    rw [List.nodup_cons] at hnd
    rw [List.filter_cons]
    by_cases hpx : p x = true
    · rw [if_pos hpx]
      constructor
      · intro hfe
        injection hfe with hxa hrest
        rw [List.filter_eq_nil_iff] at hrest
        subst hxa
        refine ⟨by simp, hpx, ?_⟩
        intro b hb hpb
        rcases List.mem_cons.mp hb with h | h
        · exact h
        · exact absurd hpb (hrest b h)
      · rintro ⟨ha, hpa, huniq⟩
        have hxa : x = a := huniq x (by simp) hpx
        subst hxa
        have he : xs.filter p = [] := by
          rw [List.filter_eq_nil_iff]
          intro b hb hpb
          have hbx := huniq b (by simp [hb]) hpb
          subst hbx
          exact hnd.1 hb
        rw [he]
    · rw [if_neg hpx]
      rw [ih hnd.2]
      constructor
      · rintro ⟨ha, hpa, huniq⟩
        refine ⟨by simp [ha], hpa, ?_⟩
        intro b hb hpb
        rcases List.mem_cons.mp hb with h | h
        · subst h; exact absurd hpb hpx
        · exact huniq b h hpb
      · rintro ⟨ha, hpa, huniq⟩
        rcases List.mem_cons.mp ha with h | h
        · subst h; exact absurd hpa hpx
        · exact ⟨h, hpa, fun b hb hpb => huniq b (by simp [hb]) hpb⟩

/-- Filters by two disjoint predicates add up to the filter by their
disjunction. -/
theorem length_filter_disjoint_add {α : Type} {l : List α} {p q : α → Bool}
    (hdisj : ∀ a ∈ l, ¬(p a = true ∧ q a = true)) :
    (l.filter p).length + (l.filter q).length =
      (l.filter (fun a => p a || q a)).length := by
  revert hdisj
  induction l with
  | nil => intro _; simp
  | cons x xs ih =>
    intro hdisj
    have hxs : ∀ a ∈ xs, ¬(p a = true ∧ q a = true) :=
      fun a ha => hdisj a (by simp [ha])
    have hih := ih hxs
    simp only [List.filter_cons]
    by_cases hp : p x = true
    · have hq : q x = false := by
        rcases Bool.eq_false_or_eq_true (q x) with hh | hh
        · exact absurd ⟨hp, hh⟩ (hdisj x (by simp))
        · exact hh
      simp [hp, hq]
      omega
    · rw [Bool.not_eq_true] at hp
      by_cases hq : q x = true
      · simp [hp, hq]
        omega
      · rw [Bool.not_eq_true] at hq
        simp [hp, hq]
        omega

/-- A list whose `headD` is `a` and whose length is 1 is `[a]`, and
conversely. -/
theorem length_one_headD_iff {α : Type} {l : List α} {d a : α} :
    (l.length = 1 ∧ l.headD d = a) ↔ l = [a] := by
  cases l with
  | nil => simp
  | cons x xs =>
    cases xs with
    | nil => simp [eq_comm]
    | cons y ys => simp

/-- Removing a value absent from a list by `retain` leaves it unchanged. -/
theorem filter_bne_of_not_mem {α : Type} [BEq α] [LawfulBEq α] {l : List α} {a : α}
    (h : a ∉ l) : l.filter (fun q => q != a) = l := by
  rw [List.filter_eq_self]
  intro b hb
  rw [bne_iff_ne]
  rintro rfl
  exact h hb

/-! ### Grid access lemmas -/

theorem flatIdx_lt {w h x y : Nat} (hx : x < w) (hy : y < h) :
    y * w + x < w * h := by
  have h1 : (y + 1) * w = y * w + w := by ring
  have h2 : (y + 1) * w ≤ h * w := Nat.mul_le_mul_right w hy
  have h3 : w * h = h * w := Nat.mul_comm w h
  omega

theorem flatIdx_inj {w x y x' y' : Nat} (hx : x < w) (hx' : x' < w)
    (heq : y * w + x = y' * w + x') : x = x' ∧ y = y' := by
  have hxx : x = x' := by
    have e1 : (y * w + x) % w = x := by
      rw [Nat.add_comm, Nat.add_mul_mod_self_right]
      exact Nat.mod_eq_of_lt hx
    have e2 : (y' * w + x') % w = x' := by
      rw [Nat.add_comm, Nat.add_mul_mod_self_right]
      exact Nat.mod_eq_of_lt hx'
    rw [heq] at e1
    exact e1.symm.trans e2
  refine ⟨hxx, ?_⟩
  subst hxx
  have : y * w = y' * w := by omega
  exact Nat.eq_of_mul_eq_mul_right (by omega) this

@[simp] theorem Grid.width_setCell (g : Grid) (x y : Nat) (p : Piece) :
    (g.setCell x y p).width = g.width := rfl

@[simp] theorem Grid.height_setCell (g : Grid) (x y : Nat) (p : Piece) :
    (g.setCell x y p).height = g.height := rfl

@[simp] theorem Grid.data_length_setCell (g : Grid) (x y : Nat) (p : Piece) :
    (g.setCell x y p).data.length = g.data.length := by
  simp [Grid.setCell]

theorem Grid.get_setCell_self {g : Grid} {x y : Nat} (p : Piece)
    (hx : x < g.width) (hy : y < g.height)
    (hlen : g.data.length = g.width * g.height) :
    (g.setCell x y p).get x y = p := by
  unfold Grid.setCell Grid.get
  simp only
  rw [List.getD_eq_getElem?_getD, List.getElem?_set_self (by rw [hlen]; exact flatIdx_lt hx hy)]
  rfl

theorem Grid.get_setCell_ne {g : Grid} {x y x' y' : Nat} (p : Piece)
    (hx : x < g.width) (hx' : x' < g.width)
    (hne : (x', y') ≠ (x, y)) :
    (g.setCell x y p).get x' y' = g.get x' y' := by
  unfold Grid.setCell Grid.get
  simp only
  rw [List.getD_eq_getElem?_getD, List.getD_eq_getElem?_getD,
    List.getElem?_set_ne]
  intro heq
  rcases flatIdx_inj hx hx' heq with ⟨h1, h2⟩
  exact hne (by simp [h1.symm, h2.symm])

/-! ### Four-in-a-row windows (specification side)

`completesFour` formalises the spec's "that empty cell, if filled with that
color, would complete a four-in-a-row for that color": some aligned window
of four cells contains the cell, and its other three cells already hold the
color.  It is stated against the grid alone and is compared with the
incrementally maintained `threats` list. -/

/-- Horizontal window of four cells starting at `(x0, y0)`. -/
def hWindow (x0 y0 : Nat) : List Position :=
  [(x0, y0), (x0 + 1, y0), (x0 + 2, y0), (x0 + 3, y0)]

/-- Vertical window of four cells starting at `(x0, y0)`. -/
def vWindow (x0 y0 : Nat) : List Position :=
  [(x0, y0), (x0, y0 + 1), (x0, y0 + 2), (x0, y0 + 3)]

/-- Down-right diagonal window of four cells starting at `(x0, y0)`. -/
def dWindow1 (x0 y0 : Nat) : List Position :=
  [(x0, y0), (x0 + 1, y0 + 1), (x0 + 2, y0 + 2), (x0 + 3, y0 + 3)]

/-- Up-right diagonal window of four cells (left column at row `y0 + 3`). -/
def dWindow2 (x0 y0 : Nat) : List Position :=
  [(x0, y0 + 3), (x0 + 1, y0 + 2), (x0 + 2, y0 + 1), (x0 + 3, y0)]

/-- Every aligned four-cell window of a `w × h` grid. -/
def allWindows (w h : Nat) : List (List Position) :=
  ((List.range (w - 3)).flatMap fun x0 => (List.range h).map fun y0 => hWindow x0 y0)
    ++ ((List.range w).flatMap fun x0 => (List.range (h - 3)).map fun y0 => vWindow x0 y0)
    ++ ((List.range (w - 3)).flatMap fun x0 => (List.range (h - 3)).map fun y0 => dWindow1 x0 y0)
    ++ ((List.range (w - 3)).flatMap fun x0 => (List.range (h - 3)).map fun y0 => dWindow2 x0 y0)

/-- Spec-side definition of a winning gap: filling `q` with `c` completes
four in a row. -/
def completesFour (g : Grid) (c : Piece) (q : Position) : Prop :=
  ∃ W ∈ allWindows g.width g.height, q ∈ W ∧ ∀ r ∈ W, r ≠ q → g.get r.1 r.2 = c

theorem mem_allWindows {w h : Nat} {W : List Position} :
    W ∈ allWindows w h ↔
      (∃ x0 y0, x0 + 3 < w ∧ y0 < h ∧ W = hWindow x0 y0) ∨
      (∃ x0 y0, x0 < w ∧ y0 + 3 < h ∧ W = vWindow x0 y0) ∨
      (∃ x0 y0, x0 + 3 < w ∧ y0 + 3 < h ∧ W = dWindow1 x0 y0) ∨
      (∃ x0 y0, x0 + 3 < w ∧ y0 + 3 < h ∧ W = dWindow2 x0 y0) := by
  simp only [allWindows, List.mem_append, List.mem_flatMap, List.mem_map, List.mem_range]
  constructor
  · rintro (((⟨x0, hx0, y0, hy0, hW⟩ | ⟨x0, hx0, y0, hy0, hW⟩) | ⟨x0, hx0, y0, hy0, hW⟩) |
      ⟨x0, hx0, y0, hy0, hW⟩)
    · exact Or.inl ⟨x0, y0, by omega, hy0, hW.symm⟩
    · exact Or.inr (Or.inl ⟨x0, y0, hx0, by omega, hW.symm⟩)
    · exact Or.inr (Or.inr (Or.inl ⟨x0, y0, by omega, by omega, hW.symm⟩))
    · exact Or.inr (Or.inr (Or.inr ⟨x0, y0, by omega, by omega, hW.symm⟩))
  · rintro (⟨x0, y0, hx0, hy0, hW⟩ | ⟨x0, y0, hx0, hy0, hW⟩ | ⟨x0, y0, hx0, hy0, hW⟩ |
      ⟨x0, y0, hx0, hy0, hW⟩)
    · exact Or.inl (Or.inl (Or.inl ⟨x0, by omega, y0, hy0, hW.symm⟩))
    · exact Or.inl (Or.inl (Or.inr ⟨x0, hx0, y0, by omega, hW.symm⟩))
    · exact Or.inl (Or.inr ⟨x0, by omega, y0, by omega, hW.symm⟩)
    · exact Or.inr ⟨x0, by omega, y0, by omega, hW.symm⟩

theorem allWindows_pos_bounds {w h : Nat} {W : List Position}
    (hW : W ∈ allWindows w h) : ∀ r ∈ W, r.1 < w ∧ r.2 < h := by
  rcases mem_allWindows.mp hW with ⟨x0, y0, h1, h2, rfl⟩ | ⟨x0, y0, h1, h2, rfl⟩ |
    ⟨x0, y0, h1, h2, rfl⟩ | ⟨x0, y0, h1, h2, rfl⟩ <;>
  · intro r hr
    simp only [hWindow, vWindow, dWindow1, dWindow2, List.mem_cons,
      List.mem_singleton, List.not_mem_nil, or_false] at hr
    rcases hr with rfl | rfl | rfl | rfl <;> constructor <;> simp <;> omega

theorem allWindows_nodup {w h : Nat} {W : List Position}
    (hW : W ∈ allWindows w h) : W.Nodup := by
  rcases mem_allWindows.mp hW with ⟨x0, y0, h1, h2, rfl⟩ | ⟨x0, y0, h1, h2, rfl⟩ |
    ⟨x0, y0, h1, h2, rfl⟩ | ⟨x0, y0, h1, h2, rfl⟩ <;>
  · simp [hWindow, vWindow, dWindow1, dWindow2, Prod.ext_iff]
    try omega

theorem allWindows_length {w h : Nat} {W : List Position}
    (hW : W ∈ allWindows w h) : W.length = 4 := by
  rcases mem_allWindows.mp hW with ⟨x0, y0, h1, h2, rfl⟩ | ⟨x0, y0, h1, h2, rfl⟩ |
    ⟨x0, y0, h1, h2, rfl⟩ | ⟨x0, y0, h1, h2, rfl⟩ <;> rfl

/-! ### Characterisation of the sliding-window scan -/

theorem Tallies.get_push (t : Tallies) (π π' : Piece) (p : Position) :
    (t.push π p).get π' = t.get π' ++ (if π' = π then [p] else []) := by
  cases π <;> cases π' <;> simp [Tallies.push, Tallies.setL, Tallies.get]

theorem Tallies.get_remove (t : Tallies) (π π' : Piece) (p : Position) :
    (t.remove π p).get π' =
      if π' = π then (t.get π').filter (fun q => q != p) else t.get π' := by
  cases π <;> cases π' <;> simp [Tallies.remove, Tallies.setL, Tallies.get]

/-- The four cells the tallies describe after processing index `j`. -/
def wnd (poses : List (Position × Piece)) (j : Nat) : List (Position × Piece) :=
  (poses.take (j + 1)).drop (j - 3)

/-- Loop invariant: on entry to iteration `i`, each tally holds exactly the
positions of its piece among the last (up to) four processed cells. -/
def tInv (poses : List (Position × Piece)) (i : Nat) (t : Tallies) : Prop :=
  ∀ π : Piece, t.get π =
    (((poses.take i).drop (i - 4)).filter (fun pp => pp.2 == π)).map Prod.fst

theorem tInv_zero (poses : List (Position × Piece)) : tInv poses 0 ⟨[], [], []⟩ := by
  intro π
  cases π <;> rfl

/-- An earlier entry of a duplicate-free-positions list does not reappear
among the positions from index `k` on. -/
theorem not_mem_fst_drop_take {poses : List (Position × Piece)}
    (hnd : (poses.map Prod.fst).Nodup) {j k i : Nat} (hj : j < poses.length)
    (hjk : j < k) : poses[j].1 ∉ ((poses.take i).drop k).map Prod.fst := by
  intro hmem
  rw [List.map_drop, List.map_take] at hmem
  set l := poses.map Prod.fst with hl
  have hjl : j < l.length := by simp [hl, hj]
  have hfst : poses[j].1 = l[j] := by simp [hl]
  rw [hfst] at hmem
  have hsub : ((l.take i).drop k).Sublist (l.drop k) := by
    rw [List.drop_take]
    exact List.take_sublist _ _
  have hmem2 : l[j] ∈ l.drop k := hsub.mem hmem
  rw [List.mem_iff_getElem] at hmem2
  rcases hmem2 with ⟨m, hm, hget⟩
  rw [List.getElem_drop] at hget
  have := (hnd.getElem_inj_iff).mp hget
  omega

/-- The `Prod.fst`-projected filter of a one-element cell list. -/
theorem map_fst_filter_singleton (pp : Position × Piece) (π : Piece) :
    (List.filter (fun x => x.2 == π) [pp]).map Prod.fst =
      if π = pp.2 then [pp.1] else [] := by
  by_cases h : π = pp.2
  · simp [List.filter_cons, h]
  · have hf : (pp.2 == π) = false := by
      simp only [beq_eq_false_iff_ne]
      exact fun hh => h hh.symm
    simp [List.filter_cons, hf, h]

theorem stepT_inv {poses : List (Position × Piece)} {i : Nat} {t : Tallies}
    (hi : i < poses.length) (hnd : (poses.map Prod.fst).Nodup)
    (ht : tInv poses i t) : tInv poses (i + 1) (stepT poses i t) := by
  intro π
  have hpp : poses.getD i ((0, 0), Piece.Empty) = poses[i] := List.getD_eq_getElem _ _ hi
  have htake : poses.take (i + 1) = poses.take i ++ [poses[i]] := by
    rw [List.take_succ, List.getElem?_eq_getElem hi]
    rfl
  by_cases hc : 4 ≤ i
  · -- removal step happens
    have hi4 : i - 4 < poses.length := by omega
    have hep : poses.getD (i - 4) ((0, 0), Piece.Empty) = poses[i - 4] :=
      List.getD_eq_getElem _ _ hi4
    have hA4 : i - 4 < (poses.take i).length := by
      rw [List.length_take]; omega
    have h34 : i - 4 + 1 = i - 3 := by omega
    have hdropA : (poses.take i).drop (i - 4) =
        poses[i - 4] :: (poses.take i).drop (i - 3) := by
      rw [List.drop_eq_getElem_cons hA4, List.getElem_take, h34]
    have harith : i + 1 - 4 = i - 3 := by omega
    have hwout : (poses.take (i + 1)).drop (i + 1 - 4) =
        (poses.take i).drop (i - 3) ++ [poses[i]] := by
      rw [harith, htake, List.drop_append_of_le_length (by rw [List.length_take]; omega)]
    have hml4 : i - 4 < (poses.map Prod.fst).length := by
      rw [List.length_map]; omega
    have hmli : i < (poses.map Prod.fst).length := by
      rw [List.length_map]; omega
    have hepne : poses[i - 4].1 ≠ poses[i].1 := by
      intro hfeq
      have h1 : (poses.map Prod.fst)[i - 4] = (poses.map Prod.fst)[i] := by
        rw [List.getElem_map, List.getElem_map]
        exact hfeq
      have := (hnd.getElem_inj_iff).mp h1
      omega
    have hnotmid : poses[i - 4].1 ∉
        ((poses.take i).drop (i - 3)).map Prod.fst :=
      not_mem_fst_drop_take hnd hi4 (by omega)
    have hnotfil : poses[i - 4].1 ∉
        (((poses.take i).drop (i - 3)).filter (fun pp => pp.2 == π)).map Prod.fst := by
      intro hmem
      apply hnotmid
      rw [List.mem_map] at hmem ⊢
      rcases hmem with ⟨pp, hpp', hfst⟩
      exact ⟨pp, (List.mem_filter.mp hpp').1, hfst⟩
    -- the tallied list before this step, split at its head
    have htπ := ht π
    rw [hdropA, List.filter_cons] at htπ
    -- unfold one loop iteration
    simp only [stepT, hpp, if_pos hc, hep]
    rw [Tallies.get_remove, Tallies.get_push, hwout]
    simp only [List.filter_append, List.map_append]
    rw [map_fst_filter_singleton]
    by_cases hπe : π = poses[i - 4].2
    · rw [if_pos hπe]
      have hbe : (poses[i - 4].2 == π) = true := by simp [hπe]
      rw [hbe, if_pos rfl, List.map_cons] at htπ
      rw [htπ]
      rw [List.filter_cons]
      have hself : (poses[i - 4].1 != poses[i - 4].1) = false := by simp
      rw [hself]
      simp only [Bool.false_eq_true, if_false]
      have h2 : ((((poses.take i).drop (i - 3)).filter
          (fun pp => pp.2 == π)).map Prod.fst).filter (fun q => q != poses[i - 4].1) =
          (((poses.take i).drop (i - 3)).filter (fun pp => pp.2 == π)).map Prod.fst :=
        filter_bne_of_not_mem hnotfil
      rw [h2]
      congr 1
      by_cases hpi : π = poses[i].2
      · rw [if_pos hpi]
        have hbne : (poses[i].1 != poses[i - 4].1) = true := by
          simp only [bne_iff_ne]
          exact fun hh => hepne hh.symm
        simp [List.filter_cons, hbne]
      · rw [if_neg hpi]
        rfl
    · rw [if_neg hπe]
      have hbe : (poses[i - 4].2 == π) = false := by
        simp only [beq_eq_false_iff_ne]
        exact fun hh => hπe hh.symm
      rw [hbe] at htπ
      simp only [Bool.false_eq_true, if_false] at htπ
      rw [htπ]
  · -- no removal
    have h04 : i - 4 = 0 := by omega
    have h04' : i + 1 - 4 = 0 := by omega
    simp only [stepT, hpp, if_neg hc]
    rw [Tallies.get_push]
    have htπ := ht π
    rw [h04, List.drop_zero] at htπ
    rw [h04', List.drop_zero, htake, List.filter_append, List.map_append, ← htπ,
      map_fst_filter_singleton]

/-- The condition under which the scan records `(q, π)` at window index `j`. -/
def pushCondAt (poses : List (Position × Piece)) (j : Nat) (q : Position)
    (π : Piece) : Prop :=
  j < poses.length ∧ 3 ≤ j ∧ (π = Piece.Red ∨ π = Piece.Yellow) ∧
  ((wnd poses j).filter (fun pp => pp.2 == Piece.Empty)).map Prod.fst = [q] ∧
  ((wnd poses j).filter (fun pp => pp.2 == π)).length = 3

theorem pushesAt_mem {poses : List (Position × Piece)} {i : Nat} {t' : Tallies}
    (hi : i < poses.length) (ht' : tInv poses (i + 1) t') {q : Position} {π : Piece} :
    ((q, π) ∈ pushesAt t' i) ↔ pushCondAt poses i q π := by
  have harith : i + 1 - 4 = i - 3 := by omega
  have hGet : ∀ π' : Piece, t'.get π' =
      ((wnd poses i).filter (fun pp => pp.2 == π')).map Prod.fst := by
    intro π'
    have := ht' π'
    rw [harith] at this
    exact this
  have hEmpty : t'.empty =
      ((wnd poses i).filter (fun pp => pp.2 == Piece.Empty)).map Prod.fst := hGet Piece.Empty
  unfold pushesAt
  by_cases hcond : 3 ≤ i ∧ t'.empty.length = 1
  · rw [if_pos hcond]
    rw [List.mem_filterMap]
    constructor
    · rintro ⟨π', hRY', hsome⟩
      by_cases hlen : (t'.get π').length = 3
      · rw [if_pos hlen] at hsome
        injection hsome with hpair
        have hq : t'.empty.headD (0, 0) = q := congrArg Prod.fst hpair
        have hπ : π' = π := congrArg Prod.snd hpair
        subst hπ
        refine ⟨hi, hcond.1, by simpa using hRY', ?_, ?_⟩
        · rw [← hEmpty]
          exact length_one_headD_iff.mp ⟨hcond.2, hq⟩
        · rw [← List.length_map _ Prod.fst, ← hGet]
          exact hlen
      · rw [if_neg hlen] at hsome
        exact absurd hsome (by simp)
    · rintro ⟨hjl, h3, hRY, hf, hl⟩
      refine ⟨π, ?_, ?_⟩
      · rcases hRY with rfl | rfl <;> simp
      · have hlen3 : (t'.get π).length = 3 := by
          rw [hGet, List.length_map]
          exact hl
        rw [if_pos hlen3]
        have hq : t'.empty.headD (0, 0) = q := by
          rw [hEmpty, hf]
          rfl
        rw [hq]
  · rw [if_neg hcond]
    simp only [List.not_mem_nil, false_iff]
    rintro ⟨hjl, h3, hRY, hf, hl⟩
    apply hcond
    refine ⟨h3, ?_⟩
    rw [hEmpty, hf]
    rfl

theorem scanAux_mem {poses : List (Position × Piece)}
    (hnd : (poses.map Prod.fst).Nodup) :
    ∀ (rem i : Nat) (t : Tallies), rem + i = poses.length → tInv poses i t →
      ∀ q π, ((q, π) ∈ scanAux poses rem i t ↔
        ∃ j, i ≤ j ∧ pushCondAt poses j q π) := by
  intro rem
  induction rem with
  | zero =>
    intro i t hlen ht q π
    simp only [scanAux, List.not_mem_nil, false_iff]
    rintro ⟨j, hij, hjl, hrest⟩
    omega
  | succ rem ih =>
    intro i t hlen ht q π
    have hi : i < poses.length := by omega
    rw [scanAux]
    rw [List.mem_append]
    have ht' := stepT_inv hi hnd ht
    rw [pushesAt_mem hi ht']
    rw [ih (i + 1) _ (by omega) ht' q π]
    constructor
    · rintro (hpc | ⟨j, hij, hpc⟩)
      · exact ⟨i, le_refl i, hpc⟩
      · exact ⟨j, by omega, hpc⟩
    · rintro ⟨j, hij, hpc⟩
      by_cases hji : j = i
      · subst hji
        exact Or.inl hpc
      · exact Or.inr ⟨j, by omega, hpc⟩

theorem scanLine_mem {poses : List (Position × Piece)}
    (hnd : (poses.map Prod.fst).Nodup) (q : Position) (π : Piece) :
    (q, π) ∈ scanLine poses ↔ ∃ j, pushCondAt poses j q π := by
  rw [scanLine, scanAux_mem hnd poses.length 0 _ (by omega) (tInv_zero poses)]
  constructor
  · rintro ⟨j, _, hpc⟩
    exact ⟨j, hpc⟩
  · rintro ⟨j, hpc⟩
    exact ⟨j, Nat.zero_le j, hpc⟩

/-! ### Geometry of the clipped lines -/

/-- `n` consecutive integers starting at `lo`. -/
def intRange (lo : Int) (n : Nat) : List Int :=
  (List.range n).map (fun (k : Nat) => lo + (k : Int))

@[simp] theorem length_intRange (lo : Int) (n : Nat) : (intRange lo n).length = n := by
  rw [intRange, List.length_map, List.length_range]

theorem getElem_intRange (lo : Int) (n : Nat) (k : Nat) (hk : k < (intRange lo n).length) :
    (intRange lo n)[k] = lo + k := by
  have hk' : k < n := by
    rw [length_intRange] at hk
    exact hk
  simp [intRange]

theorem mem_intRange {lo d : Int} {n : Nat} :
    d ∈ intRange lo n ↔ lo ≤ d ∧ d < lo + n := by
  rw [intRange]
  simp only [List.mem_map, List.mem_range]
  constructor
  · rintro ⟨k, hk, rfl⟩
    omega
  · rintro ⟨h1, h2⟩
    exact ⟨(d - lo).toNat, by omega, by omega⟩

theorem nodup_intRange (lo : Int) (n : Nat) : (intRange lo n).Nodup := by
  rw [intRange]
  apply List.Nodup.map_on _ (List.nodup_range n)
  intro a _ b _ hab
  omega

theorem take_intRange (lo : Int) (n k : Nat) :
    (intRange lo n).take k = intRange lo (min k n) := by
  apply List.ext_getElem
  · simp
  · intro m h1 h2
    rw [List.getElem_take, getElem_intRange, getElem_intRange]

theorem drop_intRange (lo : Int) (n k : Nat) :
    (intRange lo n).drop k = intRange (lo + k) (n - k) := by
  apply List.ext_getElem
  · simp
  · intro m h1 h2
    rw [List.getElem_drop, getElem_intRange, getElem_intRange]
    push_cast
    ring

theorem intRange_four (a : Int) : intRange a 4 = [a, a + 1, a + 2, a + 3] := by
  apply List.ext_getElem
  · simp
  · intro m h1 h2
    rw [getElem_intRange]
    rw [length_intRange] at h1
    interval_cases m <;> norm_num

/-- Clipping `-3..=3` by an interval predicate yields consecutive offsets. -/
theorem filter_dvals_interval (P : Int → Bool) (L H : Int)
    (hL1 : -3 ≤ L) (hL2 : L ≤ 0) (hH1 : 0 ≤ H) (hH2 : H ≤ 3)
    (hP : ∀ d ∈ dvals, P d = decide (L ≤ d ∧ d ≤ H)) :
    dvals.filter P = intRange L (H - L + 1).toNat := by
  rw [List.filter_congr hP]
  interval_cases L <;> interval_cases H <;> decide

theorem inB_iff {w h : Nat} {p : Int × Int} :
    inB w h p = true ↔ (0 ≤ p.1 ∧ 0 ≤ p.2 ∧ p.1 < (w : Int) ∧ p.2 < (h : Int)) := by
  simp [inB, and_assoc]

theorem mem_dvals_bounds {d : Int} (hd : d ∈ dvals) : -3 ≤ d ∧ d ≤ 3 := by
  simp only [dvals, List.mem_cons, List.not_mem_nil, or_false] at hd
  rcases hd with rfl | rfl | rfl | rfl | rfl | rfl | rfl <;> omega

/-- Generic form of the clipped-line normalisation: if the in-bounds offsets
form the interval `[L, H]`, the clipped line is the `toNat` image of that
interval of offsets. -/
theorem linePts_run_gen {w h x y : Nat} (dx dy L H : Int)
    (hL1 : -3 ≤ L) (hL2 : L ≤ 0) (hH1 : 0 ≤ H) (hH2 : H ≤ 3)
    (hiff : ∀ d : Int, -3 ≤ d → d ≤ 3 →
      ((0 ≤ (x : Int) + d * dx ∧ 0 ≤ (y : Int) + d * dy ∧
        (x : Int) + d * dx < (w : Int) ∧ (y : Int) + d * dy < (h : Int)) ↔
        (L ≤ d ∧ d ≤ H))) :
    linePts w h x y dx dy =
      (intRange L (H - L + 1).toNat).map
        (fun d => (((x : Int) + d * dx).toNat, ((y : Int) + d * dy).toNat)) ∧
    (∀ d : Int, L ≤ d → d ≤ H →
      0 ≤ (x : Int) + d * dx ∧ (x : Int) + d * dx < (w : Int) ∧
      0 ≤ (y : Int) + d * dy ∧ (y : Int) + d * dy < (h : Int)) ∧
    (∀ d : Int, -3 ≤ d → d ≤ 3 →
      (0 ≤ (x : Int) + d * dx ∧ (x : Int) + d * dx < (w : Int) ∧
       0 ≤ (y : Int) + d * dy ∧ (y : Int) + d * dy < (h : Int)) →
      L ≤ d ∧ d ≤ H) := by
  refine ⟨?_, ?_, ?_⟩
  · rw [linePts, List.filter_map, List.map_map]
    rw [filter_dvals_interval _ L H hL1 hL2 hH1 hH2 ?_]
    · rfl
    · intro d hd
      rcases mem_dvals_bounds hd with ⟨h1, h2⟩
      apply bool_eq_decide_of_iff
      rw [Function.comp_apply, inB_iff]
      exact hiff d h1 h2
  · intro d h1 h2
    have := (hiff d (by omega) (by omega)).mpr ⟨h1, h2⟩
    exact ⟨this.1, this.2.2.1, this.2.1, this.2.2.2⟩
  · intro d h1 h2 hb
    exact (hiff d h1 h2).mp ⟨hb.1, hb.2.2.1, hb.2.1, hb.2.2.2⟩

/-- Position of the cell at offset `d` along direction `(dx, dy)` from `(x, y)`. -/
def pN (x y : Nat) (dx dy d : Int) : Position :=
  (((x : Int) + d * dx).toNat, ((y : Int) + d * dy).toNat)

/-- The interval bounds of the in-bounds offsets, for each of the four scan
directions through an in-bounds cell `(x, y)`: the clipped line is the
`pN`-image of an offsets interval `[L, H]` containing 0, in-bounds exactly on
that interval, and `pN` is injective on it. -/
theorem linePts_run {w h x y : Nat} (hx : x < w) (hy : y < h) {dx dy : Int}
    (hd : (dx, dy) ∈ dirsList) :
    ∃ L H : Int, (-3 ≤ L ∧ L ≤ 0 ∧ 0 ≤ H ∧ H ≤ 3) ∧
      (linePts w h x y dx dy = (intRange L (H - L + 1).toNat).map (pN x y dx dy) ∧
       (∀ d : Int, L ≤ d → d ≤ H →
         0 ≤ (x : Int) + d * dx ∧ (x : Int) + d * dx < (w : Int) ∧
         0 ≤ (y : Int) + d * dy ∧ (y : Int) + d * dy < (h : Int)) ∧
       (∀ d : Int, -3 ≤ d → d ≤ 3 →
         (0 ≤ (x : Int) + d * dx ∧ (x : Int) + d * dx < (w : Int) ∧
          0 ≤ (y : Int) + d * dy ∧ (y : Int) + d * dy < (h : Int)) →
         L ≤ d ∧ d ≤ H)) ∧
      (∀ d1 d2 : Int, L ≤ d1 → d1 ≤ H → L ≤ d2 → d2 ≤ H →
        pN x y dx dy d1 = pN x y dx dy d2 → d1 = d2) := by
  simp only [dirsList, List.mem_cons, List.not_mem_nil, or_false, Prod.ext_iff, and_true, true_and] at hd
  rcases hd with ⟨rfl, rfl⟩ | ⟨rfl, rfl⟩ | ⟨rfl, rfl⟩ | ⟨rfl, rfl⟩
  · refine ⟨max (-3) (max ((x : Int) - w + 1) ((y : Int) - h + 1)),
      min 3 (min (x : Int) (y : Int)), ⟨by omega, by omega, by omega, by omega⟩, ?_, ?_⟩
    · apply linePts_run_gen <;> omega
    · intro d1 d2 h1 h2 h3 h4 hpair
      rw [pN, pN, Prod.mk.injEq] at hpair
      omega
  · refine ⟨max (-3) ((x : Int) - w + 1), min 3 (x : Int),
      ⟨by omega, by omega, by omega, by omega⟩, ?_, ?_⟩
    · apply linePts_run_gen <;> omega
    · intro d1 d2 h1 h2 h3 h4 hpair
      rw [pN, pN, Prod.mk.injEq] at hpair
      omega
  · refine ⟨max (-3) (max ((x : Int) - w + 1) (-(y : Int))),
      min 3 (min (x : Int) ((h : Int) - 1 - y)),
      ⟨by omega, by omega, by omega, by omega⟩, ?_, ?_⟩
    · apply linePts_run_gen <;> omega
    · intro d1 d2 h1 h2 h3 h4 hpair
      rw [pN, pN, Prod.mk.injEq] at hpair
      omega
  · refine ⟨max (-3) (-(y : Int)), min 3 ((h : Int) - 1 - y),
      ⟨by omega, by omega, by omega, by omega⟩, ?_, ?_⟩
    · apply linePts_run_gen <;> omega
    · intro d1 d2 h1 h2 h3 h4 hpair
      rw [pN, pN, Prod.mk.injEq] at hpair
      omega

/-! ### From window tallies to cell conditions -/

theorem cellsOf_nodup (g : Grid) {W : List Position} (hW : W.Nodup) :
    (cellsOf g W).Nodup := by
  apply List.Nodup.map_on _ hW
  intro a _ b _ hab
  exact congrArg Prod.fst hab

theorem window_filter_iff (g : Grid) {W : List Position} (hW : W.Nodup)
    (hlen : W.length = 4) (q : Position) (π : Piece) (hπ : π ≠ Piece.Empty) :
    (((cellsOf g W).filter (fun pp => pp.2 == Piece.Empty)).map Prod.fst = [q] ∧
      ((cellsOf g W).filter (fun pp => pp.2 == π)).length = 3) ↔
    (q ∈ W ∧ g.get q.1 q.2 = Piece.Empty ∧ ∀ r ∈ W, r ≠ q → g.get r.1 r.2 = π) := by
  have hclen : (cellsOf g W).length = 4 := by
    rw [cellsOf, List.length_map, hlen]
  have hcnd := cellsOf_nodup g hW
  have hdisj : ∀ e ∈ cellsOf g W,
      ¬((e.2 == Piece.Empty) = true ∧ (e.2 == π) = true) := by
    rintro e _ ⟨h1, h2⟩
    rw [beq_iff_eq] at h1 h2
    rw [h1] at h2
    exact hπ h2.symm
  constructor
  · rintro ⟨h1, h2⟩
    have hF1 : ((cellsOf g W).filter (fun pp => pp.2 == Piece.Empty)).length = 1 := by
      rw [← List.length_map _ Prod.fst, h1]
      rfl
    rcases List.length_eq_one.mp hF1 with ⟨e, hFe⟩
    have heq : e.1 = q := by
      rw [hFe] at h1
      injection h1
    have hemem : e ∈ cellsOf g W ∧ (e.2 == Piece.Empty) = true := by
      have : e ∈ (cellsOf g W).filter (fun pp => pp.2 == Piece.Empty) := by
        rw [hFe]; simp
      exact List.mem_filter.mp this
    rcases List.mem_map.mp hemem.1 with ⟨r, hrW, hre⟩
    have hrq : r = q := by
      have := congrArg Prod.fst hre
      simpa [heq] using this
    have hgete : e.2 = Piece.Empty := beq_iff_eq.mp hemem.2
    have hEq : g.get q.1 q.2 = Piece.Empty := by
      have := congrArg Prod.snd hre
      simp only at this
      rw [← hrq, this]
      exact hgete
    refine ⟨hrq ▸ hrW, hEq, ?_⟩
    intro r' hr' hne
    have hall : ∀ e' ∈ cellsOf g W,
        ((e'.2 == Piece.Empty) || (e'.2 == π)) = true := by
      have hsum := length_filter_disjoint_add hdisj
      apply List.filter_length_eq_length.mp
      omega
    have he'mem : (r', g.get r'.1 r'.2) ∈ cellsOf g W :=
      List.mem_map.mpr ⟨r', hr', rfl⟩
    rcases Bool.or_eq_true_iff.mp (hall _ he'mem) with hE' | hπ'
    · exfalso
      have : (r', g.get r'.1 r'.2) ∈
          (cellsOf g W).filter (fun pp => pp.2 == Piece.Empty) :=
        List.mem_filter.mpr ⟨he'mem, hE'⟩
      rw [hFe] at this
      rcases List.mem_singleton.mp this with h
      exact hne (by rw [← heq, ← h])
    · exact beq_iff_eq.mp hπ'
  · rintro ⟨hq, hE, hrest⟩
    have hqcell : (q, g.get q.1 q.2) ∈ cellsOf g W := List.mem_map.mpr ⟨q, hq, rfl⟩
    have hsingle : (cellsOf g W).filter (fun pp => pp.2 == Piece.Empty) =
        [(q, g.get q.1 q.2)] := by
      rw [filter_eq_singleton_iff hcnd]
      refine ⟨hqcell, by simp [hE], ?_⟩
      intro e' he' hpe'
      rcases List.mem_map.mp he' with ⟨r, hrW, hre⟩
      have hrE : g.get r.1 r.2 = Piece.Empty := by
        have := congrArg Prod.snd hre
        simp only at this
        rw [this]
        exact beq_iff_eq.mp hpe'
      have hrq : r = q := by
        by_contra hne
        exact hπ ((hrest r hrW hne).symm.trans hrE)
      rw [← hre, hrq]
    constructor
    · rw [hsingle]
      rfl
    · have hall : ∀ e' ∈ cellsOf g W,
          ((e'.2 == Piece.Empty) || (e'.2 == π)) = true := by
        intro e' he'
        rcases List.mem_map.mp he' with ⟨r, hrW, hre⟩
        by_cases hrq : r = q
        · apply Bool.or_eq_true_iff.mpr
          left
          have := congrArg Prod.snd hre
          simp only at this
          rw [← this, hrq, hE]
          rfl
        · apply Bool.or_eq_true_iff.mpr
          right
          have := congrArg Prod.snd hre
          simp only at this
          rw [← this, hrest r hrW hrq]
          exact beq_self_eq_true π
      have hsum := length_filter_disjoint_add hdisj
      have hor : ((cellsOf g W).filter
          (fun a => (a.2 == Piece.Empty) || (a.2 == π))).length = 4 := by
        rw [List.filter_length_eq_length.mpr hall]
        exact hclen
      have hone : ((cellsOf g W).filter (fun pp => pp.2 == Piece.Empty)).length = 1 := by
        rw [hsingle]
        rfl
      omega

/-- Membership in the threats recorded along one scan direction: exactly the
four-cell windows along that direction that contain `(x, y)`, have their one
empty cell at `q`, and three cells of color `π`. -/
theorem lineThreats_mem {g : Grid} {x y : Nat} (hx : x < g.width)
    (hy : y < g.height) (dx dy : Int) (hd : (dx, dy) ∈ dirsList)
    (q : Position) (π : Piece) :
    (q, π) ∈ lineThreats g x y dx dy ↔
      ((π = Piece.Red ∨ π = Piece.Yellow) ∧
        ∃ a : Int, -3 ≤ a ∧ a ≤ 0 ∧
          (∀ d : Int, a ≤ d → d ≤ a + 3 →
            0 ≤ (x : Int) + d * dx ∧ (x : Int) + d * dx < (g.width : Int) ∧
            0 ≤ (y : Int) + d * dy ∧ (y : Int) + d * dy < (g.height : Int)) ∧
          q ∈ (intRange a 4).map (pN x y dx dy) ∧
          g.get q.1 q.2 = Piece.Empty ∧
          (∀ r ∈ (intRange a 4).map (pN x y dx dy), r ≠ q → g.get r.1 r.2 = π)) := by
  obtain ⟨L, H, ⟨hL1, hL2, hH1, hH2⟩, ⟨hrun, hin, hrev⟩, hinj⟩ := linePts_run hx hy hd
  have hHL : L ≤ H := by omega
  set n : Nat := (H - L + 1).toNat with hn
  have hncast : (n : Int) = H - L + 1 := by omega
  have hposes : cellsOf g (linePts g.width g.height x y dx dy) =
      (intRange L n).map (fun d =>
        (pN x y dx dy d, g.get (pN x y dx dy d).1 (pN x y dx dy d).2)) := by
    rw [hrun, cellsOf, List.map_map]
    rfl
  have hlenposes : (cellsOf g (linePts g.width g.height x y dx dy)).length = n := by
    rw [hposes, List.length_map, length_intRange]
  have hfsts : (cellsOf g (linePts g.width g.height x y dx dy)).map Prod.fst =
      (intRange L n).map (pN x y dx dy) := by
    rw [hposes, List.map_map]
    rfl
  have hndrun : ∀ (a : Int), L ≤ a → a + 3 ≤ H →
      ((intRange a 4).map (pN x y dx dy)).Nodup := by
    intro a ha1 ha2
    apply List.Nodup.map_on _ (nodup_intRange a 4)
    intro d1 hd1 d2 hd2 hpq
    rcases mem_intRange.mp hd1 with ⟨hb1, hb2⟩
    rcases mem_intRange.mp hd2 with ⟨hb3, hb4⟩
    exact hinj d1 d2 (by omega) (by omega) (by omega) (by omega) hpq
  have hnd : ((cellsOf g (linePts g.width g.height x y dx dy)).map Prod.fst).Nodup := by
    rw [hfsts]
    apply List.Nodup.map_on _ (nodup_intRange L n)
    intro d1 hd1 d2 hd2 hpq
    rcases mem_intRange.mp hd1 with ⟨hb1, hb2⟩
    rcases mem_intRange.mp hd2 with ⟨hb3, hb4⟩
    exact hinj d1 d2 (by omega) (by omega) (by omega) (by omega) hpq
  -- the window of cells examined at loop index j, as a window of positions
  have hwnd : ∀ j : Nat, 3 ≤ j → j < n →
      wnd (cellsOf g (linePts g.width g.height x y dx dy)) j =
        cellsOf g ((intRange (L + (j : Int) - 3) 4).map (pN x y dx dy)) := by
    intro j h3 hjn
    rw [wnd, hposes, ← List.map_take, ← List.map_drop, take_intRange, drop_intRange]
    rw [cellsOf, List.map_map]
    have he1 : min (j + 1) n - (j - 3) = 4 := by omega
    have he2 : L + ((j - 3 : Nat) : Int) = L + (j : Int) - 3 := by omega
    rw [he1, he2]
    rfl
  unfold lineThreats
  rw [hlenposes]
  by_cases h4 : 4 ≤ n
  · rw [if_pos h4]
    rw [scanLine_mem hnd q π]
    constructor
    · rintro ⟨j, hjlen, hj3, hRY, hfE, hfπ⟩
      rw [hlenposes] at hjlen
      have hπne : π ≠ Piece.Empty := by
        rcases hRY with rfl | rfl <;> simp
      set a : Int := L + (j : Int) - 3 with ha
      have haL : L ≤ a := by omega
      have haH : a + 3 ≤ H := by omega
      have hw := hwnd j hj3 hjlen
      rw [hw] at hfE hfπ
      have hiff := window_filter_iff g (hndrun a haL haH)
        (by rw [List.length_map, length_intRange]) q π hπne
      rcases hiff.mp ⟨hfE, hfπ⟩ with ⟨hqW, hqE, hoth⟩
      refine ⟨hRY, a, by omega, by omega, ?_, hqW, hqE, hoth⟩
      intro d hd1 hd2
      exact hin d (by omega) (by omega)
    · rintro ⟨hRY, a, ha1, ha2, hbnds, hqW, hqE, hoth⟩
      have hπne : π ≠ Piece.Empty := by
        rcases hRY with rfl | rfl <;> simp
      have haL : L ≤ a ∧ a ≤ H := by
        have := hrev a (by omega) (by omega) (hbnds a (le_refl a) (by omega))
        exact ⟨this.1, this.2⟩
      have haH : a + 3 ≤ H := by
        have := hrev (a + 3) (by omega) (by omega) (hbnds (a + 3) (by omega) (by omega))
        omega
      refine ⟨3 + (a - L).toNat, ?_, by omega, hRY, ?_, ?_⟩
      · rw [hlenposes]
        omega
      all_goals
        have hw := hwnd (3 + (a - L).toNat) (by omega) (by omega)
        have hae : L + ((3 + (a - L).toNat : Nat) : Int) - 3 = a := by omega
        rw [hae] at hw
        rw [hw]
        have hiff := window_filter_iff g (hndrun a haL.1 haH)
          (by rw [List.length_map, length_intRange]) q π hπne
        rcases hiff.mpr ⟨hqW, hqE, hoth⟩ with ⟨hfE, hfπ⟩
      · exact hfE
      · exact hfπ
  · rw [if_neg h4]
    simp only [List.not_mem_nil, false_iff]
    rintro ⟨hRY, a, ha1, ha2, hbnds, hqW, hqE, hoth⟩
    apply h4
    have haL := hrev a (by omega) (by omega) (hbnds a (le_refl a) (by omega))
    have haH := hrev (a + 3) (by omega) (by omega) (hbnds (a + 3) (by omega) (by omega))
    omega

/-- What one `Board::update` call records: a four-cell window through the
just-played cell `(x, y)` whose single empty cell is `q` and whose other
three cells hold `π`. -/
def pushSpec (g : Grid) (x y : Nat) (q : Position) (π : Piece) : Prop :=
  (π = Piece.Red ∨ π = Piece.Yellow) ∧
  ∃ W ∈ allWindows g.width g.height, (x, y) ∈ W ∧ q ∈ W ∧
    g.get q.1 q.2 = Piece.Empty ∧ ∀ r ∈ W, r ≠ q → g.get r.1 r.2 = π

set_option maxHeartbeats 2000000 in
theorem allPushes_mem {g : Grid} {x y : Nat} (hx : x < g.width)
    (hy : y < g.height) (q : Position) (π : Piece) :
    (q, π) ∈ allPushes g x y ↔ pushSpec g x y q π := by
  unfold allPushes
  simp only [List.mem_append]
  rw [lineThreats_mem hx hy (-1) (-1) (by simp [dirsList]) q π,
    lineThreats_mem hx hy (-1) 0 (by simp [dirsList]) q π,
    lineThreats_mem hx hy (-1) 1 (by simp [dirsList]) q π,
    lineThreats_mem hx hy 0 1 (by simp [dirsList]) q π]
  constructor
  · rintro ((((⟨hRY, a, ha1, ha2, hbnds, hqW, hqE, hoth⟩ |
      ⟨hRY, a, ha1, ha2, hbnds, hqW, hqE, hoth⟩) |
      ⟨hRY, a, ha1, ha2, hbnds, hqW, hqE, hoth⟩) |
      ⟨hRY, a, ha1, ha2, hbnds, hqW, hqE, hoth⟩))
    · -- direction (-1, -1) gives a descending diagonal window
      have h0 := hbnds a (le_refl a) (by omega)
      have hone := hbnds (a + 1) (by omega) (by omega)
      have h2 := hbnds (a + 2) (by omega) (by omega)
      have h3 := hbnds (a + 3) (by omega) (le_refl _)
      have hset : ∀ r : Position, r ∈ (intRange a 4).map (pN x y (-1) (-1)) ↔
          r ∈ dWindow1 ((x : Int) - a - 3).toNat ((y : Int) - a - 3).toNat := by
        rintro ⟨r1, r2⟩
        simp only [intRange_four, List.map_cons, List.map_nil, pN, dWindow1,
          List.mem_cons, List.not_mem_nil, or_false, Prod.ext_iff, and_true, true_and]
        omega
      have hwmem : dWindow1 ((x : Int) - a - 3).toNat ((y : Int) - a - 3).toNat ∈
          allWindows g.width g.height := by
        apply mem_allWindows.mpr
        refine Or.inr (Or.inr (Or.inl
          ⟨((x : Int) - a - 3).toNat, ((y : Int) - a - 3).toNat, ?_, ?_, rfl⟩))
        · omega
        · omega
      have hxymem : (x, y) ∈ dWindow1 ((x : Int) - a - 3).toNat ((y : Int) - a - 3).toNat := by
        simp only [dWindow1, List.mem_cons, List.not_mem_nil, or_false, Prod.ext_iff, and_true, true_and]
        omega
      exact ⟨hRY, _, hwmem, hxymem, (hset q).mp hqW, hqE,
        fun r hr hne => hoth r ((hset r).mpr hr) hne⟩
    · -- direction (-1, 0) gives a horizontal window
      have h0 := hbnds a (le_refl a) (by omega)
      have hone := hbnds (a + 1) (by omega) (by omega)
      have h2 := hbnds (a + 2) (by omega) (by omega)
      have h3 := hbnds (a + 3) (by omega) (le_refl _)
      have hset : ∀ r : Position, r ∈ (intRange a 4).map (pN x y (-1) 0) ↔
          r ∈ hWindow ((x : Int) - a - 3).toNat y := by
        rintro ⟨r1, r2⟩
        simp only [intRange_four, List.map_cons, List.map_nil, pN, hWindow,
          List.mem_cons, List.not_mem_nil, or_false, Prod.ext_iff, and_true, true_and]
        omega
      have hwmem : hWindow ((x : Int) - a - 3).toNat y ∈
          allWindows g.width g.height := by
        apply mem_allWindows.mpr
        refine Or.inl ⟨((x : Int) - a - 3).toNat, y, ?_, hy, rfl⟩
        omega
      have hxymem : (x, y) ∈ hWindow ((x : Int) - a - 3).toNat y := by
        simp only [hWindow, List.mem_cons, List.not_mem_nil, or_false, Prod.ext_iff, and_true, true_and]
        omega
      exact ⟨hRY, _, hwmem, hxymem, (hset q).mp hqW, hqE,
        fun r hr hne => hoth r ((hset r).mpr hr) hne⟩
    · -- direction (-1, 1) gives an ascending diagonal window
      have h0 := hbnds a (le_refl a) (by omega)
      have hone := hbnds (a + 1) (by omega) (by omega)
      have h2 := hbnds (a + 2) (by omega) (by omega)
      have h3 := hbnds (a + 3) (by omega) (le_refl _)
      have hset : ∀ r : Position, r ∈ (intRange a 4).map (pN x y (-1) 1) ↔
          r ∈ dWindow2 ((x : Int) - a - 3).toNat ((y : Int) + a).toNat := by
        rintro ⟨r1, r2⟩
        simp only [intRange_four, List.map_cons, List.map_nil, pN, dWindow2,
          List.mem_cons, List.not_mem_nil, or_false, Prod.ext_iff, and_true, true_and]
        omega
      have hwmem : dWindow2 ((x : Int) - a - 3).toNat ((y : Int) + a).toNat ∈
          allWindows g.width g.height := by
        apply mem_allWindows.mpr
        refine Or.inr (Or.inr (Or.inr
          ⟨((x : Int) - a - 3).toNat, ((y : Int) + a).toNat, ?_, ?_, rfl⟩))
        · omega
        · omega
      have hxymem : (x, y) ∈ dWindow2 ((x : Int) - a - 3).toNat ((y : Int) + a).toNat := by
        simp only [dWindow2, List.mem_cons, List.not_mem_nil, or_false, Prod.ext_iff, and_true, true_and]
        omega
      exact ⟨hRY, _, hwmem, hxymem, (hset q).mp hqW, hqE,
        fun r hr hne => hoth r ((hset r).mpr hr) hne⟩
    · -- direction (0, 1) gives a vertical window
      have h0 := hbnds a (le_refl a) (by omega)
      have hone := hbnds (a + 1) (by omega) (by omega)
      have h2 := hbnds (a + 2) (by omega) (by omega)
      have h3 := hbnds (a + 3) (by omega) (le_refl _)
      have hset : ∀ r : Position, r ∈ (intRange a 4).map (pN x y 0 1) ↔
          r ∈ vWindow x ((y : Int) + a).toNat := by
        rintro ⟨r1, r2⟩
        simp only [intRange_four, List.map_cons, List.map_nil, pN, vWindow,
          List.mem_cons, List.not_mem_nil, or_false, Prod.ext_iff, and_true, true_and]
        omega
      have hwmem : vWindow x ((y : Int) + a).toNat ∈
          allWindows g.width g.height := by
        apply mem_allWindows.mpr
        refine Or.inr (Or.inl ⟨x, ((y : Int) + a).toNat, hx, ?_, rfl⟩)
        omega
      have hxymem : (x, y) ∈ vWindow x ((y : Int) + a).toNat := by
        simp only [vWindow, List.mem_cons, List.not_mem_nil, or_false, Prod.ext_iff, and_true, true_and]
        omega
      exact ⟨hRY, _, hwmem, hxymem, (hset q).mp hqW, hqE,
        fun r hr hne => hoth r ((hset r).mpr hr) hne⟩
  · rintro ⟨hRY, W, hWmem, hxyW, hqW, hqE, hoth⟩
    rcases mem_allWindows.mp hWmem with ⟨x0, y0, hb1, hb2, rfl⟩ | ⟨x0, y0, hb1, hb2, rfl⟩ |
      ⟨x0, y0, hb1, hb2, rfl⟩ | ⟨x0, y0, hb1, hb2, rfl⟩
    · -- horizontal window ↔ direction (-1, 0)
      have hxyb : x0 ≤ x ∧ x ≤ x0 + 3 ∧ y = y0 := by
        simp only [hWindow, List.mem_cons, List.not_mem_nil, or_false,
          Prod.ext_iff] at hxyW
        omega
      have hset : ∀ r : Position,
          r ∈ (intRange ((x : Int) - x0 - 3) 4).map (pN x y (-1) 0) ↔
          r ∈ hWindow x0 y0 := by
        rintro ⟨r1, r2⟩
        simp only [intRange_four, List.map_cons, List.map_nil, pN, hWindow,
          List.mem_cons, List.not_mem_nil, or_false, Prod.ext_iff, and_true, true_and]
        omega
      refine Or.inl (Or.inl (Or.inr ⟨hRY, (x : Int) - x0 - 3, by omega, by omega, ?_,
        (hset q).mpr hqW, hqE, fun r hr hne => hoth r ((hset r).mp hr) hne⟩))
      intro d hd1 hd2
      omega
    · -- vertical window ↔ direction (0, 1)
      have hxyb : y0 ≤ y ∧ y ≤ y0 + 3 ∧ x = x0 := by
        simp only [vWindow, List.mem_cons, List.not_mem_nil, or_false,
          Prod.ext_iff] at hxyW
        omega
      have hset : ∀ r : Position,
          r ∈ (intRange ((y0 : Int) - y) 4).map (pN x y 0 1) ↔
          r ∈ vWindow x0 y0 := by
        rintro ⟨r1, r2⟩
        simp only [intRange_four, List.map_cons, List.map_nil, pN, vWindow,
          List.mem_cons, List.not_mem_nil, or_false, Prod.ext_iff, and_true, true_and]
        omega
      refine Or.inr ⟨hRY, (y0 : Int) - y, by omega, by omega, ?_,
        (hset q).mpr hqW, hqE, fun r hr hne => hoth r ((hset r).mp hr) hne⟩
      intro d hd1 hd2
      omega
    · -- descending diagonal ↔ direction (-1, -1)
      have hxyb : x0 ≤ x ∧ x ≤ x0 + 3 ∧ (x : Int) - x0 = (y : Int) - y0 := by
        simp only [dWindow1, List.mem_cons, List.not_mem_nil, or_false,
          Prod.ext_iff] at hxyW
        omega
      have hset : ∀ r : Position,
          r ∈ (intRange ((x : Int) - x0 - 3) 4).map (pN x y (-1) (-1)) ↔
          r ∈ dWindow1 x0 y0 := by
        rintro ⟨r1, r2⟩
        simp only [intRange_four, List.map_cons, List.map_nil, pN, dWindow1,
          List.mem_cons, List.not_mem_nil, or_false, Prod.ext_iff, and_true, true_and]
        omega
      refine Or.inl (Or.inl (Or.inl ⟨hRY, (x : Int) - x0 - 3, by omega, by omega, ?_,
        (hset q).mpr hqW, hqE, fun r hr hne => hoth r ((hset r).mp hr) hne⟩))
      intro d hd1 hd2
      omega
    · -- ascending diagonal ↔ direction (-1, 1)
      have hxyb : x0 ≤ x ∧ x ≤ x0 + 3 ∧ (x : Int) - x0 = (y0 : Int) + 3 - y := by
        simp only [dWindow2, List.mem_cons, List.not_mem_nil, or_false,
          Prod.ext_iff] at hxyW
        omega
      have hset : ∀ r : Position,
          r ∈ (intRange ((x : Int) - x0 - 3) 4).map (pN x y (-1) 1) ↔
          r ∈ dWindow2 x0 y0 := by
        rintro ⟨r1, r2⟩
        simp only [intRange_four, List.map_cons, List.map_nil, pN, dWindow2,
          List.mem_cons, List.not_mem_nil, or_false, Prod.ext_iff, and_true, true_and]
        omega
      refine Or.inl (Or.inr ⟨hRY, (x : Int) - x0 - 3, by omega, by omega, ?_,
        (hset q).mpr hqW, hqE, fun r hr hne => hoth r ((hset r).mp hr) hne⟩)
      intro d hd1 hd2
      omega

/-! ### Auxiliary bounds and list-update lemmas -/

theorem scanAux_length (poses : List (Position × Piece)) :
    ∀ (rem i : Nat) (t : Tallies), (scanAux poses rem i t).length ≤ 2 * rem := by
  intro rem
  induction rem with
  | zero => intro i t; simp [scanAux]
  | succ rem ih =>
    intro i t
    rw [scanAux]
    rw [List.length_append]
    have h1 : (pushesAt (stepT poses i t) i).length ≤ 2 := by
      unfold pushesAt
      split
      · exact (List.length_filterMap_le _ _).trans (by simp)
      · simp
    have h2 := ih (i + 1) (stepT poses i t)
    omega

theorem linePts_length_le (w h x y : Nat) (dx dy : Int) :
    (linePts w h x y dx dy).length ≤ 7 := by
  rw [linePts, List.length_map]
  exact (List.length_filter_le _ _).trans (by simp [dvals])

theorem lineThreats_length_le (g : Grid) (x y : Nat) (dx dy : Int) :
    (lineThreats g x y dx dy).length ≤ 14 := by
  unfold lineThreats
  split
  · rw [scanLine]
    have h1 := scanAux_length (cellsOf g (linePts g.width g.height x y dx dy))
      (cellsOf g (linePts g.width g.height x y dx dy)).length 0 ⟨[], [], []⟩
    have h2 : (cellsOf g (linePts g.width g.height x y dx dy)).length ≤ 7 := by
      rw [cellsOf, List.length_map]
      exact linePts_length_le _ _ _ _ _ _
    omega
  · simp

theorem allPushes_length_le (g : Grid) (x y : Nat) :
    (allPushes g x y).length ≤ 56 := by
  unfold allPushes
  simp only [List.length_append]
  have h1 := lineThreats_length_le g x y (-1) (-1)
  have h2 := lineThreats_length_le g x y (-1) 0
  have h3 := lineThreats_length_le g x y (-1) 1
  have h4 := lineThreats_length_le g x y 0 1
  omega

theorem sum_set_getD (l : List Nat) :
    ∀ (n a : Nat), n < l.length → (l.set n a).sum + l.getD n 0 = l.sum + a := by
  induction l with
  | nil => intro n a hn; simp at hn
  | cons x xs ih =>
    intro n a hn
    cases n with
    | zero => simp [List.set]; omega
    | succ m =>
      have hm : m < xs.length := by simpa using hn
      have := ih m a hm
      simp only [List.set, List.sum_cons, List.getD_cons_succ]
      omega

theorem getD_set_self (l : List Nat) (n a : Nat) (hn : n < l.length) :
    (l.set n a).getD n 0 = a := by
  rw [List.getD_eq_getElem?_getD, List.getElem?_set_self hn]
  rfl

theorem getD_set_ne (l : List Nat) (n m a : Nat) (hnm : n ≠ m) :
    (l.set n a).getD m 0 = l.getD m 0 := by
  rw [List.getD_eq_getElem?_getD, List.getElem?_set_ne hnm, ← List.getD_eq_getElem?_getD]

theorem getD_replicate_of_lt {w hgt c : Nat} (hc : c < w) :
    (List.replicate w hgt).getD c 0 = hgt := by
  rw [List.getD_eq_getElem?_getD, List.getElem?_replicate, if_pos hc]
  rfl

theorem grid_new_get (w h x y : Nat) :
    (Grid.new w h Piece.Empty).get x y = Piece.Empty := by
  rw [Grid.new, Grid.get]
  simp only
  rw [List.getD_eq_getElem?_getD, List.getElem?_replicate]
  split <;> rfl

/-! ### The reachability invariant bundle -/

/-- All invariants maintained by `drop` on a `w × h` board, including the
characterisation of `threats` (C1), the column-fill property (C10), and the
size accounting used to bound `score` (C5). -/
structure BInv (w h : Nat) (b : Board) : Prop where
  gw : b.grid.width = w
  gh : b.grid.height = h
  glen : b.grid.data.length = w * h
  dzlen : b.drop_zones.length = w
  dzle : ∀ c, c < w → b.drop_zones.getD c 0 ≤ h
  fill : ∀ c r, c < w → r < h →
    (b.grid.get c r = Piece.Empty ↔ r < b.drop_zones.getD c 0)
  nm : b.next_move = Piece.Red ∨ b.next_move = Piece.Yellow
  win : b.winner = none ∨ b.winner = some Piece.Red ∨ b.winner = some Piece.Yellow
  tlen : b.threats.length + 56 * b.drop_zones.sum ≤ 56 * (w * h)
  tbnd : ∀ pq ∈ b.threats, pq.1.1 < w ∧ pq.1.2 < h
  tchar : ∀ (p : Position) (π : Piece), π ≠ Piece.Empty →
    (((p, π) ∈ b.threats) ↔
      (b.grid.get p.1 p.2 = Piece.Empty ∧ completesFour b.grid π p))
  tne : ∀ p : Position, ((p, Piece.Empty)) ∉ b.threats

theorem binv_base (w h : Nat) : BInv w h (Board.new_with_size w h) := by
  refine ⟨rfl, rfl, by simp [Board.new_with_size, Grid.new], by simp [Board.new_with_size],
    ?_, ?_, Or.inr rfl, Or.inl rfl, ?_, ?_, ?_, ?_⟩
  · intro c hc
    rw [show (Board.new_with_size w h).drop_zones = List.replicate w h from rfl]
    rw [getD_replicate_of_lt hc]
  · intro c r hc hr
    rw [show (Board.new_with_size w h).grid = Grid.new w h Piece.Empty from rfl,
      grid_new_get,
      show (Board.new_with_size w h).drop_zones = List.replicate w h from rfl,
      getD_replicate_of_lt hc]
    simp [hr]
  · simp [Board.new_with_size, List.sum_replicate, smul_eq_mul]
  · intro pq hpq
    simp [Board.new_with_size] at hpq
  · intro p π hπ
    constructor
    · intro hmem
      simp [Board.new_with_size] at hmem
    · rintro ⟨hE, W, hWmem, hpW, hoth⟩
      exfalso
      have hnd := allWindows_nodup hWmem
      have hlen4 := allWindows_length hWmem
      rcases exists_ne_of_nodup hnd (by omega) p hpW with ⟨r, hrW, hrne⟩
      have := hoth r hrW hrne
      rw [show (Board.new_with_size w h).grid = Grid.new w h Piece.Empty from rfl,
        grid_new_get] at this
      exact hπ this.symm
  · intro p hmem
    simp [Board.new_with_size] at hmem

/-- Structural description of a successful `drop`. -/
theorem drop_pos_eq {b : Board} {c : Nat} (hlen : c < b.drop_zones.length)
    (hk : 0 < b.drop_zones.getD c 0) :
    b.drop c =
      ({ grid := b.grid.setCell c (b.drop_zones.getD c 0 - 1) b.next_move
         drop_zones := b.drop_zones.set c (b.drop_zones.getD c 0 - 1)
         threats :=
           b.threats.filter (fun pq => pq.1 != (c, b.drop_zones.getD c 0 - 1)) ++
             allPushes (b.grid.setCell c (b.drop_zones.getD c 0 - 1) b.next_move) c
               (b.drop_zones.getD c 0 - 1)
         winner :=
           if ((c, b.drop_zones.getD c 0 - 1), b.next_move) ∈ b.threats
           then some b.next_move else b.winner
         next_move := b.next_move.opponent
         show_threats := b.show_threats },
       some (b.drop_zones.getD c 0 - 1)) := by
  have hspot : (b.drop_zones.set c (b.drop_zones.getD c 0 - 1)).getD c 0 =
      b.drop_zones.getD c 0 - 1 := getD_set_self _ _ _ hlen
  simp only [Board.drop, if_pos hk, hspot, Board.set, Board.update]

/-- A winning gap is unaffected by filling a cell that was empty (and hence
cannot lie inside the witness window, except at the gap itself). -/
theorem completesFour_setCell_of_ne {g : Grid} {c r0 : Nat} {π0 : Piece}
    (hEmpty : g.get c r0 = Piece.Empty) {π : Piece} {p : Position}
    (hπ : π ≠ Piece.Empty) (hcw : c < g.width)
    (hCF : completesFour g π p) : completesFour (g.setCell c r0 π0) π p := by
  rcases hCF with ⟨W, hWmem, hpW, hoth⟩
  refine ⟨W, hWmem, hpW, ?_⟩
  intro r hrW hrne
  have hrb := allWindows_pos_bounds hWmem r hrW
  have hrc : r ≠ (c, r0) := by
    rintro rfl
    have hrr := hoth _ hrW hrne
    rw [hEmpty] at hrr
    exact hπ hrr.symm
  rw [Grid.get_setCell_ne π0 hcw hrb.1 (by rw [Prod.mk.eta]; exact hrc)]
  exact hoth r hrW hrne

/-- A winning gap in the updated grid whose witness window avoids the filled
cell was already a winning gap before. -/
theorem completesFour_setCell_back {g : Grid} {c r0 : Nat} {π0 : Piece}
    {π : Piece} {p : Position} {W : List Position} (hcw : c < g.width)
    (hWmem : W ∈ allWindows g.width g.height) (hnotin : (c, r0) ∉ W) (hpW : p ∈ W)
    (hoth : ∀ r ∈ W, r ≠ p → (g.setCell c r0 π0).get r.1 r.2 = π) :
    completesFour g π p := by
  refine ⟨W, hWmem, hpW, ?_⟩
  intro r hrW hrne
  have hrb := allWindows_pos_bounds hWmem r hrW
  have hrc : r ≠ (c, r0) := fun heq => hnotin (heq ▸ hrW)
  rw [← Grid.get_setCell_ne π0 hcw hrb.1 (by rw [Prod.mk.eta]; exact hrc)]
  exact hoth r hrW hrne

theorem binv_drop {w h : Nat} {b : Board} (hi : BInv w h b) (c : Nat)
    (hc : c < w) : BInv w h (b.drop c).1 := by
  by_cases hz : b.drop_zones.getD c 0 = 0
  · have he : (b.drop c).1 = b := by
      rw [Board.drop, hz]
      simp
    rw [he]
    exact hi
  · have hk : 0 < b.drop_zones.getD c 0 := Nat.pos_of_ne_zero hz
    have hlen : c < b.drop_zones.length := by rw [hi.dzlen]; exact hc
    rw [drop_pos_eq hlen hk]
    simp only
    set k0 := b.drop_zones.getD c 0 with hk0
    set r0 := k0 - 1 with hr0
    set π0 := b.next_move with hπ0def
    set g' := b.grid.setCell c r0 π0 with hg'
    have hkh : k0 ≤ h := hi.dzle c hc
    have hr0h : r0 < h := by omega
    have hcw : c < b.grid.width := by rw [hi.gw]; exact hc
    have hr0gh : r0 < b.grid.height := by rw [hi.gh]; exact hr0h
    have hEmpty : b.grid.get c r0 = Piece.Empty :=
      (hi.fill c r0 hc hr0h).mpr (by omega)
    have hπ0ne : π0 ≠ Piece.Empty := by
      rcases hi.nm with hnm | hnm <;> rw [hπ0def, hnm] <;> simp
    have hget'c : g'.get c r0 = π0 :=
      Grid.get_setCell_self π0 hcw hr0gh (by rw [hi.gw, hi.gh]; exact hi.glen)
    have hget'ne : ∀ x' y', (x', y') ≠ (c, r0) → x' < b.grid.width →
        g'.get x' y' = b.grid.get x' y' := by
      intro x' y' hne hx'
      exact Grid.get_setCell_ne π0 hcw hx' hne
    have hg'w : g'.width = b.grid.width := rfl
    have hg'h : g'.height = b.grid.height := rfl
    have hmem' : ∀ (p : Position) (π : Piece),
        ((p, π) ∈ b.threats.filter (fun pq => pq.1 != (c, r0)) ++ allPushes g' c r0) ↔
        (((p, π) ∈ b.threats ∧ p ≠ (c, r0)) ∨ pushSpec g' c r0 p π) := by
      intro p π
      simp only [List.mem_append, List.mem_filter, bne_iff_ne,
        allPushes_mem (show c < g'.width from by rw [hg'w]; exact hcw)
          (show r0 < g'.height from by rw [hg'h]; exact hr0gh) p π]
    refine ⟨hi.gw, hi.gh, by rw [hg'] at *; simp [hi.glen], by simp [hi.dzlen], ?_, ?_,
      ?_, ?_, ?_, ?_, ?_, ?_⟩
    · -- dzle
      intro c' hc'
      by_cases hcc : c = c'
      · subst hcc
        rw [getD_set_self _ _ _ hlen]
        omega
      · rw [getD_set_ne _ _ _ _ hcc]
        exact hi.dzle c' hc'
    · -- fill
      intro c' r' hc' hr'
      by_cases hcc : c = c'
      · subst hcc
        rw [getD_set_self _ _ _ hlen]
        by_cases hrr : r' = r0
        · subst hrr
          rw [hget'c]
          constructor
          · intro hcontr
            exact absurd hcontr hπ0ne
          · intro hlt
            omega
        · rw [hget'ne c r' (by simp [hrr]) hcw]
          rw [hi.fill c r' hc' hr']
          omega
      · rw [getD_set_ne _ _ _ _ hcc]
        rw [hget'ne c' r' (by simp [Prod.ext_iff]; intro hcc'; exact absurd hcc'.symm hcc)
          (by rw [hi.gw]; exact hc')]
        exact hi.fill c' r' hc' hr'
    · -- next_move
      rcases hi.nm with hnm | hnm <;> rw [hπ0def, hnm] <;> simp [Piece.opponent]
    · -- winner
      split
      · rcases hi.nm with hnm | hnm <;> rw [hπ0def, hnm] <;> simp
      · exact hi.win
    · -- threats length bound
      dsimp only
      have h1 : (b.threats.filter (fun pq => pq.1 != (c, r0))).length ≤ b.threats.length :=
        List.length_filter_le _ _
      have h2 := allPushes_length_le g' c r0
      have h3 : (b.drop_zones.set c r0).sum + k0 = b.drop_zones.sum + r0 :=
        sum_set_getD b.drop_zones c r0 hlen
      have h4 := hi.tlen
      rw [List.length_append]
      omega
    · -- threats position bounds
      intro pq hpq
      rcases (hmem' pq.1 pq.2).mp (by rw [Prod.mk.eta] at *; exact hpq) with ⟨hold, _⟩ | hpush
      · exact hi.tbnd pq hold
      · rcases hpush with ⟨_, W, hWmem, _, hqW, _, _⟩
        have := allWindows_pos_bounds hWmem pq.1 hqW
        rw [hg'w, hi.gw, hg'h, hi.gh] at this
        exact this
    · -- threat characterisation
      intro p π hπ
      rw [hmem' p π]
      constructor
      · rintro (⟨hold, hpne⟩ | hpush)
        · rcases (hi.tchar p π hπ).mp hold with ⟨hpE, hCF⟩
          have hpw : p.1 < b.grid.width := by
            rw [hi.gw]
            exact ((hi.tbnd _ hold).1)
          refine ⟨?_, ?_⟩
          · rw [hget'ne p.1 p.2 (by rw [Prod.mk.eta]; exact hpne) hpw]
            exact hpE
          · exact completesFour_setCell_of_ne hEmpty hπ hcw hCF
        · rcases hpush with ⟨hRY, W, hWmem, hxyW, hqW, hqE, hoth⟩
          exact ⟨hqE, W, hWmem, hqW, hoth⟩
      · rintro ⟨hpE, W, hWmem, hpW, hoth⟩
        have hpne : p ≠ (c, r0) := by
          rintro rfl
          rw [hget'c] at hpE
          exact hπ0ne hpE
        by_cases hcin : (c, r0) ∈ W
        · right
          exact ⟨(by rcases π with _ | _ | _ <;> simp at hπ ⊢ : π = Piece.Red ∨ π = Piece.Yellow),
            W, hWmem, hcin, hpW, hpE, hoth⟩
        · left
          have hCF : completesFour b.grid π p :=
            completesFour_setCell_back hcw hWmem hcin hpW hoth
          have hpb := allWindows_pos_bounds hWmem p hpW
          refine ⟨(hi.tchar p π hπ).mpr ⟨?_, hCF⟩, hpne⟩
          rw [← hget'ne p.1 p.2 (by rw [Prod.mk.eta]; exact hpne) (by rw [← hg'w]; exact hpb.1)]
          exact hpE
    · -- no Empty-colored threats
      intro p hmem
      rcases (hmem' p Piece.Empty).mp hmem with ⟨hold, _⟩ | hpush
      · exact hi.tne p hold
      · rcases hpush with ⟨hRY, _⟩
        rcases hRY with hRY | hRY <;> exact Piece.noConfusion hRY

theorem reachable_binv {w h : Nat} {b : Board} (hr : Reachable w h b) : BInv w h b := by
  induction hr with
  | base => exact binv_base w h
  | step c _ hcw ih => exact binv_drop ih c hcw

/-! ### C1: characterisation of the threats collection -/

/-- C1: on every board reachable from a fresh board by `drop` calls, a pair
`(p, color)` is a member of `threats` iff the cell at `p` is `Empty` and
placing that color at `p` would complete a four-in-a-row for it; in
particular every entry of `threats` refers to a currently-`Empty` cell. -/
theorem threats_characterisation {w h : Nat} {b : Board} (hr : Reachable w h b) :
    (∀ (p : Position) (c : Piece), c ≠ Piece.Empty →
      (((p, c) ∈ b.threats) ↔
        (b.grid.get p.1 p.2 = Piece.Empty ∧ completesFour b.grid c p))) ∧
    (∀ (p : Position) (c : Piece), (p, c) ∈ b.threats →
      b.grid.get p.1 p.2 = Piece.Empty) := by
  have hi := reachable_binv hr
  refine ⟨hi.tchar, ?_⟩
  intro p c hmem
  by_cases hc : c = Piece.Empty
  · subst hc
    exact absurd hmem (hi.tne p)
  · exact ((hi.tchar p c hc).mp hmem).1

/-- Witness for `threats_characterisation`, on the reachable board where
Yellow holds the bottom cells of columns 0–2: the recorded threat
`((3,5), Yellow)` corresponds to an empty cell completing a four-in-a-row. -/
theorem threats_characterisation_witness :
    ((3, 5), Piece.Yellow) ∈ (runDrops Board.new [0, 6, 1, 6, 2]).threats ↔
      ((runDrops Board.new [0, 6, 1, 6, 2]).grid.get 3 5 = Piece.Empty ∧
        completesFour (runDrops Board.new [0, 6, 1, 6, 2]).grid Piece.Yellow (3, 5)) :=
  (threats_characterisation
    (reachable_runDrops Reachable.base [0, 6, 1, 6, 2] (by decide))).1
    (3, 5) Piece.Yellow (by decide)

/-! ### C3: a successful drop -/

/-- C3: on a reachable board, for a column `c < width` with
`drop_zones[c] > 0`, `drop(c)` decrements `drop_zones[c]` to the landing row
`r`, writes the current `next_move` color into cell `(c, r)`, flips
`next_move`, and returns `Some(r)`. -/
theorem drop_success_spec {w h : Nat} {b : Board} (hr : Reachable w h b) (c : Nat)
    (hc : c < w) (hk : 0 < b.drop_zones.getD c 0) :
    (b.drop c).2 = some (b.drop_zones.getD c 0 - 1) ∧
    (b.drop c).1.drop_zones = b.drop_zones.set c (b.drop_zones.getD c 0 - 1) ∧
    (b.drop c).1.grid.get c (b.drop_zones.getD c 0 - 1) = b.next_move ∧
    (b.drop c).1.next_move = b.next_move.opponent := by
  have hi := reachable_binv hr
  have hlen : c < b.drop_zones.length := by rw [hi.dzlen]; exact hc
  rw [drop_pos_eq hlen hk]
  refine ⟨rfl, rfl, ?_, rfl⟩
  have hkh := hi.dzle c hc
  exact Grid.get_setCell_self _ (by rw [hi.gw]; exact hc)
    (by rw [hi.gh]; omega) (by rw [hi.gw, hi.gh]; exact hi.glen)

/-- Witness for `drop_success_spec`: the first drop on a fresh default board
lands in row 5 of column 0. -/
theorem drop_success_spec_witness :
    ((0 : Nat) < 7 ∧ 0 < (Board.new_with_size 7 6).drop_zones.getD 0 0) ∧
    (((Board.new_with_size 7 6).drop 0).2 =
        some ((Board.new_with_size 7 6).drop_zones.getD 0 0 - 1) ∧
      ((Board.new_with_size 7 6).drop 0).1.drop_zones =
        (Board.new_with_size 7 6).drop_zones.set 0
          ((Board.new_with_size 7 6).drop_zones.getD 0 0 - 1) ∧
      ((Board.new_with_size 7 6).drop 0).1.grid.get 0
          ((Board.new_with_size 7 6).drop_zones.getD 0 0 - 1) =
        (Board.new_with_size 7 6).next_move ∧
      ((Board.new_with_size 7 6).drop 0).1.next_move =
        (Board.new_with_size 7 6).next_move.opponent) :=
  ⟨⟨by decide, by decide⟩, drop_success_spec Reachable.base 0 (by decide) (by decide)⟩

/-! ### C5: the score function -/

theorem sum_natAbs_le {Bd : Nat} (l : List Int) (hB : ∀ x ∈ l, x.natAbs ≤ Bd) :
    l.sum.natAbs ≤ l.length * Bd := by
  revert hB
  induction l with
  | nil => intro _; simp
  | cons a as ih =>
    intro hB
    have h1 := hB a (by simp)
    have h2 := ih (fun x hx => hB x (by simp [hx]))
    have h3 := Int.natAbs_add_le a as.sum
    simp only [List.sum_cons, List.length_cons]
    have : (as.length + 1) * Bd = as.length * Bd + Bd := by ring
    omega

/-- C5: on every reachable board small enough that the threat sum cannot
reach the `i32` extremes, `score()` returns `i32::MAX` iff the winner is
Red, `i32::MIN` iff the winner is Yellow, and otherwise the signed sum of
`threatContribution` over the `threats` entries (0 on the bottom row,
`±2^row` otherwise). -/
theorem score_spec {w h : Nat} {b : Board} (hr : Reachable w h b)
    (hbound : 56 * (w * h) * 2 ^ h < 2147483647) :
    (b.score = i32Max ↔ b.winner = some Piece.Red) ∧
    (b.score = i32Min ↔ b.winner = some Piece.Yellow) ∧
    (b.winner = none →
      b.score = (b.threats.map (threatContribution b.grid.height)).sum) := by
  have hi := reachable_binv hr
  rcases hi.win with hwin | hwin | hwin
  · -- no winner: the heuristic sum, bounded away from the extremes
    have hsc : b.score = (b.threats.map (threatContribution b.grid.height)).sum := by
      rw [Board.score, hwin]
    have hB : ∀ x ∈ b.threats.map (threatContribution b.grid.height),
        x.natAbs ≤ 2 ^ h := by
      intro x hx
      rcases List.mem_map.mp hx with ⟨t, ht, rfl⟩
      have hy := (hi.tbnd t ht).2
      rw [threatContribution]
      split
      · simp
      · rcases t.2 with _ | _ | _
        · simp only [Int.natAbs_pow]
          have : t.1.2 ≤ h := by omega
          calc (2 : Int).natAbs ^ t.1.2 = 2 ^ t.1.2 := by norm_num
          _ ≤ 2 ^ h := Nat.pow_le_pow_right (by norm_num) this
        · simp only [Int.natAbs_neg, Int.natAbs_pow]
          have : t.1.2 ≤ h := by omega
          calc (2 : Int).natAbs ^ t.1.2 = 2 ^ t.1.2 := by norm_num
          _ ≤ 2 ^ h := Nat.pow_le_pow_right (by norm_num) this
        · simp
    have habs := sum_natAbs_le (b.threats.map (threatContribution b.grid.height)) hB
    rw [List.length_map] at habs
    have hlen_le : b.threats.length ≤ 56 * (w * h) := by
      have := hi.tlen
      omega
    have habs2 : (b.threats.map (threatContribution b.grid.height)).sum.natAbs <
        2147483647 := by
      have h1 : b.threats.length * 2 ^ h ≤ 56 * (w * h) * 2 ^ h :=
        Nat.mul_le_mul_right _ hlen_le
      omega
    have hne1 : b.score ≠ i32Max := by
      rw [hsc]
      intro he
      rw [he] at habs2
      norm_num [i32Max] at habs2
    have hne2 : b.score ≠ i32Min := by
      rw [hsc]
      intro he
      rw [he] at habs2
      norm_num [i32Min] at habs2
    refine ⟨?_, ?_, fun _ => hsc⟩
    · constructor
      · intro he; exact absurd he hne1
      · intro he; rw [hwin] at he; exact Option.noConfusion he
    · constructor
      · intro he; exact absurd he hne2
      · intro he; rw [hwin] at he; exact Option.noConfusion he
  · -- Red has won
    have hsc : b.score = i32Max := by
      rw [Board.score, hwin]
      simp
    refine ⟨?_, ?_, ?_⟩
    · simp [hsc, hwin]
    · rw [hsc, hwin]
      constructor
      · intro he; exact absurd he (by norm_num [i32Max, i32Min])
      · intro he; simp at he
    · intro he; rw [hwin] at he; exact Option.noConfusion he
  · -- Yellow has won
    have hsc : b.score = i32Min := by
      rw [Board.score, hwin]
      simp
    refine ⟨?_, ?_, ?_⟩
    · rw [hsc, hwin]
      constructor
      · intro he; exact absurd he (by norm_num [i32Max, i32Min])
      · intro he; simp at he
    · simp [hsc, hwin]
    · intro he; rw [hwin] at he; exact Option.noConfusion he

/-- Witness for `score_spec` on the fresh default board (score 0, no
winner). -/
theorem score_spec_witness :
    (56 * (7 * 6) * 2 ^ 6 < 2147483647) ∧
    (((Board.new_with_size 7 6).score = i32Max ↔
        (Board.new_with_size 7 6).winner = some Piece.Red) ∧
      ((Board.new_with_size 7 6).score = i32Min ↔
        (Board.new_with_size 7 6).winner = some Piece.Yellow) ∧
      ((Board.new_with_size 7 6).winner = none →
        (Board.new_with_size 7 6).score =
          ((Board.new_with_size 7 6).threats.map
            (threatContribution (Board.new_with_size 7 6).grid.height)).sum)) :=
  ⟨by decide, score_spec Reachable.base (by decide)⟩

/-! ### C9: the threats collection is not duplicate-free -/

/-- Counterexample to C9: after the reachable drop sequence
`[0, 6, 1, 6, 2, 6, 4]` the pair `((3,5), Yellow)` occurs twice in
`threats` (once found when Yellow filled `(2,5)`, once re-found when Yellow
filled `(4,5)`), so `threats` is a list with duplicates, not a set. -/
theorem threats_can_repeat :
    Reachable 7 6 (runDrops Board.new [0, 6, 1, 6, 2, 6, 4]) ∧
    (runDrops Board.new [0, 6, 1, 6, 2, 6, 4]).threats.count ((3, 5), Piece.Yellow) = 2 :=
  ⟨reachable_runDrops Reachable.base [0, 6, 1, 6, 2, 6, 4] (by decide), by decide⟩

/-- C9 (amended): `threats` may contain the same `(position, color)` pair
several times; what does hold is that every recorded color is `Red` or
`Yellow` — `Empty` is never a threat color — so the only sharing at a
position is between the two real colors (plus exact duplicates). -/
theorem threats_no_empty_color {w h : Nat} {b : Board} (hr : Reachable w h b)
    (p : Position) : ((p, Piece.Empty)) ∉ b.threats :=
  (reachable_binv hr).tne p

/-- Witness for `threats_no_empty_color`. -/
theorem threats_no_empty_color_witness :
    ((0, 0), Piece.Empty) ∉ (Board.new_with_size 7 6).threats :=
  threats_no_empty_color Reachable.base (0, 0)

/-! ### C10: the column-fill invariant -/

/-- C10: on every reachable board, in each column `c` the cells at rows
`r ≥ drop_zones[c]` are non-`Empty` and the cells at rows
`r < drop_zones[c]` are `Empty`. -/
theorem column_fill_invariant {w h : Nat} {b : Board} (hr : Reachable w h b)
    (c r : Nat) (hc : c < w) (hrh : r < h) :
    (b.drop_zones.getD c 0 ≤ r → b.grid.get c r ≠ Piece.Empty) ∧
    (r < b.drop_zones.getD c 0 → b.grid.get c r = Piece.Empty) := by
  have hi := reachable_binv hr
  have hfill := hi.fill c r hc hrh
  constructor
  · intro hge hEq
    have := hfill.mp hEq
    omega
  · exact hfill.mpr

/-- Witness for `column_fill_invariant` on the fresh default board. -/
theorem column_fill_invariant_witness :
    ((0 : Nat) < 7 ∧ (0 : Nat) < 6) ∧
    (((Board.new_with_size 7 6).drop_zones.getD 0 0 ≤ 0 →
        (Board.new_with_size 7 6).grid.get 0 0 ≠ Piece.Empty) ∧
      (0 < (Board.new_with_size 7 6).drop_zones.getD 0 0 →
        (Board.new_with_size 7 6).grid.get 0 0 = Piece.Empty)) :=
  ⟨⟨by decide, by decide⟩, column_fill_invariant Reachable.base 0 0 (by decide) (by decide)⟩
